import Mathlib

/-!
# Verification of the VCL language-server symbol/query engine

This development gives a shallow embedding, in Lean, of the core query
algorithms of a VCL (Varnish/Fastly configuration language) language server:
the symbol-table builder, the reference/rename/highlight resolvers and the
semantic-token pipeline, together with the text/position utilities they rely
on.  Every definition mirrors the corresponding TypeScript function
(file and function names are given in the doc comments); theorems then settle
the specified properties of those functions.

Modelling conventions:
* JavaScript numbers used for line/character data are modelled as `Int`
  (the code freely computes `Line - 1`, which may be negative on malformed
  input).
* `undefined`/absent object fields are modelled as `Option`; a JavaScript
  property access that would throw a `TypeError` (access on `undefined`) is
  modelled in the `Except Unit` monad.
* The AST delivered by the external `falco` parser is duck-typed JSON.  It is
  modelled by `ASTNode`: scalar attributes that the walker never descends
  into (`Value`, `Operator`, `Nest`, `Explicit`, `EndLine`, `EndPosition`)
  are dedicated slots, and all object/array valued fields (`Name`, `Block`,
  `Statements`, …) live in an ordered field list, which the generic walker
  `walkAST` traverses exactly like the TypeScript `for key in node` loop.
  The walker also visits plain `Token` objects; every visitor in the code
  base immediately returns on a node without a `Token` field, and a bare
  token object has none, so omitting these visits from the model preserves
  the behaviour of every visitor.
-/

/-- A lexer token as serialised by falco: `{Type, Line, Position, Literal, Offset}`.
`Line`/`Position` are 1-based.  `Offset` only appears on string tokens
(the code reads it as `node.Token.Offset || 0`). -/
structure Token where
  type : String
  line : Int
  position : Int
  literal : String
  offset : Option Int := none
deriving DecidableEq, Repr

mutual
/-- A falco AST node (duck-typed JSON object).  `token` is the `Token`
field; `value`/`operator` are the scalar `Value`/`Operator` string fields;
`nest` is the truthiness of the `Nest` marker; `explicitFlag` is `Explicit`;
`endLine`/`endPosition` are the scalar `EndLine`/`EndPosition` fields.
All object- or array-valued fields (`Name`, `Module`, `Block`, `Ident`,
`Subroutine`, `Parameters`, `Statements`, `Condition`, `Left`, `Right`, …)
are stored, in insertion order, in `fields`. -/
inductive ASTNode where
  | mk (token : Option Token) (value operator : Option String)
       (nest explicitFlag : Bool) (endLine endPosition : Option Int)
       (fields : ASTFields)
  deriving DecidableEq

/-- The ordered object/array valued fields of an AST node. -/
inductive ASTFields where
  | nil
  | obj (key : String) (child : ASTNode) (rest : ASTFields)
  | arr (key : String) (children : ASTList) (rest : ASTFields)
  deriving DecidableEq

/-- A JSON array of AST nodes. -/
inductive ASTList where
  | nil
  | cons (head : ASTNode) (tail : ASTList)
  deriving DecidableEq
end

def ASTList.toList : ASTList → List ASTNode
  | .nil => []
  | .cons h t => h :: t.toList

def ASTNode.token : ASTNode → Option Token
  | .mk t _ _ _ _ _ _ _ => t

def ASTNode.value : ASTNode → Option String
  | .mk _ v _ _ _ _ _ _ => v

def ASTNode.operator : ASTNode → Option String
  | .mk _ _ o _ _ _ _ _ => o

def ASTNode.nest : ASTNode → Bool
  | .mk _ _ _ n _ _ _ _ => n

def ASTNode.explicitFlag : ASTNode → Bool
  | .mk _ _ _ _ e _ _ _ => e

def ASTNode.endLine : ASTNode → Option Int
  | .mk _ _ _ _ _ el _ _ => el

def ASTNode.endPosition : ASTNode → Option Int
  | .mk _ _ _ _ _ _ ep _ => ep

def ASTNode.fields : ASTNode → ASTFields
  | .mk _ _ _ _ _ _ _ fs => fs

/-- Look up an object-valued field by key (first occurrence, like a JS
property read on an object built with these keys). -/
def ASTFields.getObj : ASTFields → String → Option ASTNode
  | .nil, _ => none
  | .obj k c rest, key => if k = key then some c else rest.getObj key
  | .arr _ _ rest, key => rest.getObj key

/-- Look up an array-valued field by key. -/
def ASTFields.getArr : ASTFields → String → Option (List ASTNode)
  | .nil, _ => none
  | .obj _ _ rest, key => rest.getArr key
  | .arr k cs rest, key => if k = key then some cs.toList else rest.getArr key

def ASTNode.getObj (n : ASTNode) (key : String) : Option ASTNode :=
  n.fields.getObj key

def ASTNode.getArr (n : ASTNode) (key : String) : Option (List ASTNode) :=
  n.fields.getArr key

mutual
/-- `walkAST` (src/server/src/shared/ast.ts) invokes its callback on a node
and then on every node reachable through object/array valued fields, in
field order, depth first, pre-order.  Every use of `walkAST` in the code
base only accumulates per-node facts, so the traversal is fully described
by the visit sequence, which this function returns. -/
def walkAST : ASTNode → List ASTNode
  | .mk t v o n e el ep fs => .mk t v o n e el ep fs :: walkASTFields fs

def walkASTFields : ASTFields → List ASTNode
  | .nil => []
  | .obj _ c rest => walkAST c ++ walkASTFields rest
  | .arr _ cs rest => walkASTList cs ++ walkASTFields rest

def walkASTList : ASTList → List ASTNode
  | .nil => []
  | .cons h t => walkAST h ++ walkASTList t
end

/-- A 0-based `{line, character}` position (LSP convention). -/
structure Pos where
  line : Int
  character : Int
deriving DecidableEq, Repr

/-- An LSP range; `stop` is the field called `end` in LSP. -/
structure Range where
  start : Pos
  stop : Pos
deriving DecidableEq, Repr

/-- Lexicographic order on positions. -/
def Pos.le (a b : Pos) : Prop :=
  a.line < b.line ∨ (a.line = b.line ∧ a.character ≤ b.character)

instance (a b : Pos) : Decidable (Pos.le a b) := by
  unfold Pos.le; exact inferInstance

/-- Strict lexicographic order on positions. -/
def Pos.lt (a b : Pos) : Prop :=
  a.line < b.line ∨ (a.line = b.line ∧ a.character < b.character)

instance (a b : Pos) : Decidable (Pos.lt a b) := by
  unfold Pos.lt; exact inferInstance

/-- `inner` lies inside `outer` (the `selectionRange ⊆ definingRange`
relation of the specification). -/
def rangeContains (outer inner : Range) : Prop :=
  Pos.le outer.start inner.start ∧ Pos.le inner.stop outer.stop

instance (outer inner : Range) : Decidable (rangeContains outer inner) := by
  unfold rangeContains; exact inferInstance

/-! ## Text buffer model (vscode-languageserver-textdocument semantics)

A document's content is a `String`.  `docLines` splits it into lines, each
line *keeping its trailing newline*: this mirrors `TextDocument.getText`
with an end character of `Number.MAX_SAFE_INTEGER`, whose `offsetAt` clamps
to the offset of the next line start, i.e. *after* the `'\n'`.  (Documents
are modelled with `\n` endings; the `\r` of `\r\n` would simply stay inside
the line and plays no role in any algorithm modelled here.) -/

/-- Split text into lines, each keeping its trailing newline; a text always
has at least one (possibly empty) line. -/
def docLines : List Char → List (List Char)
  | [] => [[]]
  | c :: rest =>
    if c = '\n' then [c] :: docLines rest
    else
      match docLines rest with
      | [] => [[c]]
      | l :: ls => (c :: l) :: ls

/-- The line of text at a (0-based) line number; out-of-range lines give the
empty string, matching `offsetAt`'s clamping. -/
def getLineAt (text : List Char) (line : Int) : List Char :=
  if 0 ≤ line then (docLines text).getD line.toNat [] else []

/-- Number of lines (`TextDocument.lineCount`). -/
def lineCount (text : List Char) : Nat := (docLines text).length

/-- `TextDocument.positionAt`: convert a byte offset (clamped into the
document) to a `{line, character}` position. -/
def positionAtGo : List (List Char) → Nat → Int → Pos
  | [], off, idx => ⟨idx, off⟩
  | [l], off, idx => ⟨idx, min off l.length⟩
  | l :: rest, off, idx =>
    if off < l.length then ⟨idx, off⟩ else positionAtGo rest (off - l.length) (idx + 1)

def positionAt (text : List Char) (offset : Nat) : Pos :=
  positionAtGo (docLines text) (min offset text.length) 0

/-- The character class of `getWord`'s regexes `[\w\d._-]`. -/
def isWordDotDash (ch : Char) : Bool :=
  ch.isAlphanum || ch = '_' || ch = '.' || ch = '-'

/-- JS `String.prototype.slice` index normalisation. -/
def jsSliceIndex (len : Nat) (i : Int) : Nat :=
  if i < 0 then (max 0 ((len : Int) + i)).toNat else min i.toNat len

/-- Occurrences of a character counted by `(line.match(/\{/g) || []).length`. -/
def countChar (c : Char) (l : List Char) : Nat :=
  (l.filter (fun x => x = c)).length

/-- JS `String.prototype.lastIndexOf` for a single character, as an `Int`
(`-1` when absent), matching `line.lastIndexOf("}")`. -/
def lastIndexOfChar (c : Char) (l : List Char) : Int :=
  match (l.reverse.findIdx? (fun x => x = c)) with
  | some i => (l.length : Int) - 1 - (i : Int)
  | none => -1

/-- Split a line at every double quote (the separators dropped). -/
def splitOnQuote : List Char → List (List Char)
  | [] => [[]]
  | c :: rest =>
    if c = '"' then [] :: splitOnQuote rest
    else
      match splitOnQuote rest with
      | [] => [[c]]
      | s :: ss => (c :: s) :: ss

/-- Reassemble the segments of `splitOnQuote`, dropping every second
segment (the quoted contents, quotes included); a final unmatched opening
quote is left in place, matching the regex semantics. -/
def joinStripped : List (List Char) → List Char
  | [] => []
  | [s] => s
  | [s, t] => s ++ '"' :: t
  | s :: _ :: rest => s ++ joinStripped rest

/-- `line.replace(/"([^"]*)"/g, "")`: remove every double-quoted substring
(the quotes included); an unmatched opening quote is left in place.  The
regex consumes quote pairs left to right, which is exactly: keep segment 0,
drop segment 1, keep segment 2, … of the quote-split line, re-inserting a
trailing unmatched quote. -/
def stripQuoted (l : List Char) : List Char :=
  joinStripped (splitOnQuote l)

/-! ## `VclDocument` (src/server/src/shared/vclDocument.ts) -/

/-- A document: uri, full text, and the falco AST of its last successful
parse (if any). -/
structure VclDocument where
  uri : String
  text : String
  ast : Option ASTNode := none
deriving DecidableEq

/-- `VclDocument.getLine`: the full line under a position (including its
trailing newline — see the note on `docLines`). -/
def VclDocument.getLine (d : VclDocument) (p : Pos) : List Char :=
  getLineAt d.text.toList p.line

/-- `VclDocument.getText()` with no argument: the whole text. -/
def VclDocument.getText (d : VclDocument) : List Char :=
  d.text.toList

/-- `VclDocument.getWord`: expand left and right from the cursor while the
characters match `[\w\d._-]`. -/
def VclDocument.getWord (d : VclDocument) (p : Pos) : String :=
  let line := d.getLine p
  let k := jsSliceIndex line.length p.character
  let wordStart := ((line.take k).reverse.takeWhile isWordDotDash).reverse
  let wordEnd := (line.drop k).takeWhile isWordDotDash
  String.mk (wordStart ++ wordEnd)

/-- One step of `getClosingBracePosition`'s line loop: accumulate brace
counts over the remaining lines (each first stripped of quoted strings) and
return the position on the line where the counts balance. -/
def braceScan : List (List Char) → Int → Nat → Nat → Option Pos
  | [], _, _, _ => none
  | ln :: rest, l, opened, closed =>
    let line := stripQuoted ln
    let opened := opened + countChar '{' line
    let closed := closed + countChar '}' line
    if opened = closed then
      some ⟨l, if lastIndexOfChar '}' line > 0 then lastIndexOfChar '}' line
               else (line.length : Int)⟩
    else braceScan rest (l + 1) opened closed

/-- `VclDocument.getClosingBracePosition`: scan forward line by line from
`position.line`, counting braces outside double-quoted strings; return the
position on the first line where the counts balance (note that a line
without braces balances immediately when nothing is open yet), or `none`
when the document ends unbalanced.  Only used with `0 ≤ position.line`. -/
def VclDocument.getClosingBracePosition (d : VclDocument) (position : Pos) :
    Option Pos :=
  braceScan ((docLines d.text.toList).drop position.line.toNat) position.line 0 0

example : docLines "ab\nc".toList = ["ab\n".toList, "c".toList] := by decide

example : stripQuoted "a\x7b\"\x7d\"\x7db".toList = "a\x7b\x7db".toList := by
  decide

example :
    (VclDocument.mk "u" "sub x \x7b\n\x7d\n" none).getClosingBracePosition
      ⟨0, 0⟩ = some ⟨1, 2⟩ := by decide

/-! ## Symbol provider (src/server/src/symbol-provider/index.ts) -/

/-- The LSP `SymbolKind`s the provider uses. -/
inductive SymbolKind where
  | Function
  | Object
  | Variable
  | Module
deriving DecidableEq, Repr

mutual
/-- An LSP `DocumentSymbol`.  `name` is `Option` because the code copies
`node.Name.Value`, which may be `undefined` even when `Name` exists.
`children` starts out absent (`undefined`) and is created on first use. -/
inductive DocumentSymbol where
  | mk (name : Option String) (kind : SymbolKind) (detail : Option String)
       (range selectionRange : Range) (children : Option SymbolList)

/-- A JS array of document symbols (child lists). -/
inductive SymbolList where
  | nil
  | cons (head : DocumentSymbol) (tail : SymbolList)
end

def DocumentSymbol.name : DocumentSymbol → Option String
  | .mk n _ _ _ _ _ => n

def DocumentSymbol.kind : DocumentSymbol → SymbolKind
  | .mk _ k _ _ _ _ => k

def DocumentSymbol.detail : DocumentSymbol → Option String
  | .mk _ _ d _ _ _ => d

def DocumentSymbol.range : DocumentSymbol → Range
  | .mk _ _ _ r _ _ => r

def DocumentSymbol.selectionRange : DocumentSymbol → Range
  | .mk _ _ _ _ s _ => s

def DocumentSymbol.children : DocumentSymbol → Option SymbolList
  | .mk _ _ _ _ _ c => c

def SymbolList.toList : SymbolList → List DocumentSymbol
  | .nil => []
  | .cons h t => h :: t.toList

def SymbolList.push : SymbolList → DocumentSymbol → SymbolList
  | .nil, s => .cons s .nil
  | .cons h t, s => .cons h (t.push s)

/-- `positionFromNode`: destructures `node.Token` (a `TypeError`, modelled
as `Except.error`, when the token is absent) and converts the 1-based
token coordinates to a 0-based position. -/
def positionFromNode (node : ASTNode) : Except Unit Pos :=
  match node.token with
  | some t => .ok ⟨t.line - 1, t.position - 1⟩
  | none => .error ()

/-- `selectionRangeFromNode`: the span of the node's own token text. -/
def selectionRangeFromNode (node : ASTNode) : Except Unit Range := do
  let start ← positionFromNode node
  match node.token with
  | some t =>
    .ok ⟨start, ⟨start.line, start.character + (t.literal.length : Int)⟩⟩
  | none => .error ()

/-- `rangeForBlock`: from the node's token to the closing brace found by
`getClosingBracePosition`, falling back to the start position when no
closing brace is found (`end ?? start`). -/
def rangeForBlock (vcl : VclDocument) (node : ASTNode) : Except Unit Range := do
  let start ← positionFromNode node
  let stop := vcl.getClosingBracePosition start
  .ok ⟨start, stop.getD start⟩

/-- The block-kind token types of `getSymbol`'s first `switch` group. -/
def blockKinds : List String :=
  ["BACKEND", "ACL", "TABLE", "DIRECTOR", "RATECOUNTER", "PENALTYBOX",
   "SUBROUTINE"]

/-- The expression `node.Name || node.Module || node` used by `getSymbol`
to anchor the selection range. -/
def anchorOf (node : ASTNode) : ASTNode :=
  (node.getObj "Name").getD ((node.getObj "Module").getD node)

/-- `getSymbol`: maps one AST node to a `DocumentSymbol`, or `none` for
irrelevant nodes.  Mirrors the TypeScript exactly: the selection range is
computed from `node.Name || node.Module || node` *before* the switch;
block-kind nodes carrying the `Nest` marker return `null`; reading
`node.Name.Value` throws when `Name` is absent. -/
def getSymbol (vcl : VclDocument) (node : ASTNode) :
    Except Unit (Option DocumentSymbol) := do
  match node.token with
  | none => return none
  | some tok =>
    let selectionRange ← selectionRangeFromNode (anchorOf node)
    if blockKinds.contains tok.type then
      if node.nest then return none
      else
        let blockRange ← rangeForBlock vcl node
        let declarationBlockRange :=
          if blockRange.stop.line = selectionRange.stop.line then
            ⟨blockRange.start, selectionRange.stop⟩
          else blockRange
        match node.getObj "Name" with
        | none => .error ()
        | some nameNode =>
          return some ⟨nameNode.value,
            (if tok.type = "SUBROUTINE" then .Function else .Object),
            some tok.type, declarationBlockRange, selectionRange, none⟩
    else if tok.type = "DECLARE" ∨ tok.type = "INCLUDE" then
      match node.getObj "Name" with
      | none => .error ()
      | some nameNode =>
        let start ← positionFromNode node
        return some ⟨nameNode.value,
          (if tok.type = "INCLUDE" then .Module else .Variable),
          none, ⟨start, selectionRange.stop⟩, selectionRange, none⟩
    else
      return none

/-- Append `child` to a symbol's `children` array, creating it when absent
(`context.children = context.children || []; context.children.push(...)`). -/
def pushChild (sym child : DocumentSymbol) : DocumentSymbol :=
  ⟨sym.name, sym.kind, sym.detail, sym.range, sym.selectionRange,
   some ((sym.children.getD .nil).push child)⟩

/-- Replace the last element of a list by `f` of it. -/
def updateLastWith (f : DocumentSymbol → DocumentSymbol) :
    List DocumentSymbol → List DocumentSymbol
  | [] => []
  | [x] => [f x]
  | x :: xs => x :: updateLastWith f xs

/-- One visit of `processSymbols`'s callback.  In the TypeScript the
captured `context` variable aliases the most recently pushed top-level
symbol (it is assigned exactly when a symbol is pushed into `symbols`,
and `context.children.push` mutates that shared object), so the callback
state is fully described by the `symbols` list: `context` is defined iff
`symbols` is non-empty, and a child lands on the last element. -/
def processSymbolsStep (vcl : VclDocument) (symbols : List DocumentSymbol)
    (node : ASTNode) : Except Unit (List DocumentSymbol) := do
  match node.token with
  | none => return symbols
  | some _ =>
    match ← getSymbol vcl node with
    | none => return symbols
    | some documentSymbol =>
      if node.nest && !symbols.isEmpty then
        return updateLastWith (fun c => pushChild c documentSymbol) symbols
      else
        return symbols ++ [documentSymbol]

/-- The full symbol-table construction walk
(`walkAST(vclDoc.AST, processSymbols(vclDoc, symbols))`); an exception
anywhere aborts the whole walk. -/
def buildSymbolsWalk (vcl : VclDocument) (ast : ASTNode) :
    Except Unit (List DocumentSymbol) :=
  (walkAST ast).foldlM (processSymbolsStep vcl) []

/-- The per-uri symbol cache (`symbolCache : Map<string, DocumentSymbol[]>`),
made explicit state. -/
abbrev SymbolCache := List (String × List DocumentSymbol)

def cacheGet (c : SymbolCache) (uri : String) :
    Option (List DocumentSymbol) :=
  List.lookup uri c

def cacheSet (c : SymbolCache) (uri : String) (v : List DocumentSymbol) :
    SymbolCache :=
  (uri, v) :: List.filter (fun p => !(p.1 == uri)) c

def cacheDelete (c : SymbolCache) (uri : String) : SymbolCache :=
  List.filter (fun p => !(p.1 == uri)) c

/-- `getSymbolInformation`: cached symbols, or `[]` when absent. -/
def getSymbolInformation (cache : SymbolCache) (vclDoc : VclDocument) :
    List DocumentSymbol :=
  (cacheGet cache vclDoc.uri).getD []

/-- `findSymbolByName`: first cached symbol with the given name. -/
def findSymbolByName (cache : SymbolCache) (uri name : String) :
    Option DocumentSymbol :=
  ((cacheGet cache uri).getD []).find? (fun s => s.name = some name)

/-- `updateDocumentSymbols`: on a document with an AST, walk it; on success
replace the cache entry, on an exception leave the cache untouched
(`catch … return`).  Without an AST, delete the entry. -/
def updateDocumentSymbols (cache : SymbolCache) (vclDoc : VclDocument) :
    SymbolCache :=
  match vclDoc.ast with
  | some ast =>
    match buildSymbolsWalk vclDoc ast with
    | .ok symbols => cacheSet cache vclDoc.uri symbols
    | .error _ => cache
  | none => cacheDelete cache vclDoc.uri

/-! ## Helper constructors for concrete falco ASTs used in the theorems -/

/-- An identifier node: `Token.Type = "IDENT"`, `Value` the spelled name. -/
def identNode (line pos : Int) (name : String) : ASTNode :=
  .mk (some ⟨"IDENT", line, pos, name, none⟩) (some name) none false false
    none none .nil

/-- A `sub` declaration node with a `Name` field (and nothing else), whose
keyword token sits at column 1 of `line`.  `nest` is the `Nest` marker. -/
def subDeclNode (nest : Bool) (line : Int) (nameLine namePos : Int)
    (name : String) : ASTNode :=
  .mk (some ⟨"SUBROUTINE", line, 1, "sub", none⟩) none none nest false
    none none (.obj "Name" (identNode nameLine namePos name) .nil)

/-- A top-level AST root (no token) with a `Statements` array. -/
def rootNode (statements : List ASTNode) : ASTNode :=
  .mk none none none false false none none
    (.arr "Statements" (statements.foldr (fun n acc => .cons n acc) .nil) .nil)

/-! ## Claim C1 — nested block-kind nodes and the symbol tree -/

/-- C1 fixture: a top-level subroutine `outer` followed by a subroutine
node `inner` carrying the `Nest` marker. -/
def c1Ast : ASTNode :=
  rootNode [subDeclNode false 1 1 5 "outer", subDeclNode true 2 2 5 "inner"]

def c1Doc : VclDocument :=
  ⟨"file:///c1.vcl", "sub outer \x7b\nsub inner \x7b\n\x7d\n\x7d\n",
   some c1Ast⟩

/-- C1: the claim says a block-kind node carrying the `nested` marker is
appended as a *child* of the most recently appended top-level symbol.  In
the code, `getSymbol` returns `null` for any block-kind node with `Nest`
set (`if (node.Nest) return null;`), so the nested subroutine produces no
symbol at all: the builder output has a single symbol, `outer`, whose
`children` were never created (`none`), and no symbol named `inner`
anywhere — the nested node is dropped, contradicting both the claim and
the provider's own module documentation («Nested subroutines (indicated by
`node.Nest`) are added as children of their parent symbol»). -/
theorem c1_nested_block_symbol_dropped :
    buildSymbolsWalk c1Doc c1Ast =
      .ok [⟨some "outer", .Function, some "SUBROUTINE",
            ⟨⟨0, 0⟩, ⟨3, 2⟩⟩, ⟨⟨0, 4⟩, ⟨0, 9⟩⟩, none⟩] ∧
    getSymbol c1Doc (subDeclNode true 2 2 5 "inner") = .ok none := by
  constructor
  · rfl
  · rfl

/-! ## Claim C3 — `selectionRange ⊆ definingRange` -/

/-- C3 fixture: a subroutine whose `sub` keyword sits alone on line 1 and
whose name `foo` is on line 2.  The brace-balance scan starts on the
keyword line, which contains no braces, so the counts balance immediately
and the defining range ends on line 0 — before the selection range. -/
def c3Ast : ASTNode := rootNode [subDeclNode false 1 2 1 "foo"]

def c3Doc : VclDocument :=
  ⟨"file:///c3.vcl", "sub\nfoo \x7b\n\x7d\n", some c3Ast⟩

def c3Sym : DocumentSymbol :=
  ⟨some "foo", .Function, some "SUBROUTINE",
   ⟨⟨0, 0⟩, ⟨0, 4⟩⟩, ⟨⟨1, 0⟩, ⟨1, 3⟩⟩, none⟩

/-- C3 counterexample: the builder produces a symbol whose selection range
is *not* contained in its defining range (`(1,0)-(1,3) ⊄ (0,0)-(0,4)`). -/
theorem c3_selection_not_in_defining_range :
    buildSymbolsWalk c3Doc c3Ast = .ok [c3Sym] ∧
    ¬ rangeContains c3Sym.range c3Sym.selectionRange := by
  constructor
  · rfl
  · decide

/-- The brace scan never returns a line before the one it starts on. -/
theorem braceScan_line_ge {lines : List (List Char)} {l : Int}
    {opened closed : Nat} {p : Pos}
    (h : braceScan lines l opened closed = some p) : l ≤ p.line := by
  induction lines generalizing l opened closed with
  | nil => simp [braceScan] at h
  | cons ln rest ih =>
    rw [braceScan] at h
    split at h
    · cases h
      simp
    · have := ih h
      omega

/-- Any closing-brace position found for `position` is on line
`position.line` or later. -/
theorem getClosingBracePosition_line_ge {d : VclDocument} {position : Pos}
    {p : Pos} (h : d.getClosingBracePosition position = some p) :
    position.line ≤ p.line :=
  braceScan_line_ge h

theorem positionFromNode_eq {n : ASTNode} {t : Token} (h : n.token = some t) :
    positionFromNode n = .ok ⟨t.line - 1, t.position - 1⟩ := by
  simp [positionFromNode, h]

theorem selectionRangeFromNode_eq {n : ASTNode} {t : Token}
    (h : n.token = some t) :
    selectionRangeFromNode n =
      .ok ⟨⟨t.line - 1, t.position - 1⟩,
           ⟨t.line - 1, t.position - 1 + (t.literal.length : Int)⟩⟩ := by
  rw [selectionRangeFromNode, positionFromNode_eq h]
  simp [h, Bind.bind, Except.bind]

theorem rangeForBlock_eq {vcl : VclDocument} {n : ASTNode} {t : Token}
    (h : n.token = some t) :
    rangeForBlock vcl n =
      .ok ⟨⟨t.line - 1, t.position - 1⟩,
           (vcl.getClosingBracePosition ⟨t.line - 1, t.position - 1⟩).getD
             ⟨t.line - 1, t.position - 1⟩⟩ := by
  rw [rangeForBlock, positionFromNode_eq h]
  simp [Bind.bind, Except.bind]

/-- C3 amended: every symbol `getSymbol` produces whose selection anchor
(`node.Name || node.Module || node`) has its token on the *same line* as
the node's own token, at or after it, satisfies
`selectionRange ⊆ definingRange`.  (The counterexample
`c3_selection_not_in_defining_range` shows the unrestricted claim fails
when the name sits on a later line than the keyword: the brace-balance
scan can then balance — or give up — before ever reaching the name's
line.) -/
theorem c3_amended_selection_in_defining_range
    (vcl : VclDocument) (node : ASTNode) (sym : DocumentSymbol)
    (tok atok : Token)
    (htok : node.token = some tok)
    (hatok : (anchorOf node).token = some atok)
    (hline : atok.line = tok.line)
    (hpos : tok.position ≤ atok.position)
    (h : getSymbol vcl node = .ok (some sym)) :
    rangeContains sym.range sym.selectionRange := by
  rw [getSymbol, htok] at h
  rw [selectionRangeFromNode_eq hatok] at h
  simp only [Bind.bind, Except.bind] at h
  by_cases hbk : blockKinds.contains tok.type
  · rw [if_pos hbk] at h
    by_cases hnest : node.nest
    · simp [hnest, pure, Except.pure] at h
    · simp only [hnest, Bool.false_eq_true, if_false] at h
      rw [rangeForBlock_eq htok] at h
      simp only [Bind.bind, Except.bind] at h
      cases hname : node.getObj "Name" with
      | none => rw [hname] at h; cases h
      | some nameNode =>
        rw [hname] at h
        cases hbr : vcl.getClosingBracePosition
            ⟨tok.line - 1, tok.position - 1⟩ with
        | none =>
          rw [hbr] at h
          simp only [Option.getD_none, pure, Except.pure, Except.ok.injEq,
            Option.some.injEq] at h
          subst h
          refine ⟨?_, ?_⟩ <;>
          · simp only [DocumentSymbol.range, DocumentSymbol.selectionRange,
              Pos.le]
            split <;> simp <;> omega
        | some p =>
          rw [hbr] at h
          simp only [Option.getD_some, pure, Except.pure, Except.ok.injEq,
            Option.some.injEq] at h
          subst h
          have hp := getClosingBracePosition_line_ge hbr
          simp only at hp
          refine ⟨?_, ?_⟩ <;>
          · simp only [DocumentSymbol.range, DocumentSymbol.selectionRange,
              Pos.le]
            split <;> simp at hp ⊢ <;> omega
  · rw [if_neg hbk] at h
    by_cases hdi : tok.type = "DECLARE" ∨ tok.type = "INCLUDE"
    · rw [if_pos hdi] at h
      cases hname : node.getObj "Name" with
      | none => rw [hname] at h; cases h
      | some nameNode =>
        rw [hname] at h
        rw [positionFromNode_eq htok] at h
        simp only [Bind.bind, Except.bind, pure, Except.pure,
          Except.ok.injEq, Option.some.injEq] at h
        subst h
        refine ⟨?_, ?_⟩ <;>
        · simp only [DocumentSymbol.range, DocumentSymbol.selectionRange,
            Pos.le]
          simp <;> omega
    · rw [if_neg hdi] at h
      simp [pure, Except.pure] at h

/-- C3 amended, witness: an `acl a` declaration whose name sits on the
keyword line; the symbol's selection range is inside its defining range. -/
theorem c3_amended_witness :
    rangeContains (⟨⟨0, 0⟩, ⟨1, 2⟩⟩ : Range) ⟨⟨0, 4⟩, ⟨0, 5⟩⟩ :=
  c3_amended_selection_in_defining_range
    ⟨"file:///c3w.vcl", "acl a \x7b\n\x7d\n", none⟩
    (.mk (some ⟨"ACL", 1, 1, "acl", none⟩) none none false false none none
      (.obj "Name" (identNode 1 5 "a") .nil))
    ⟨some "a", .Object, some "ACL", ⟨⟨0, 0⟩, ⟨1, 2⟩⟩, ⟨⟨0, 4⟩, ⟨0, 5⟩⟩, none⟩
    ⟨"ACL", 1, 1, "acl", none⟩ ⟨"IDENT", 1, 5, "a", none⟩
    rfl rfl rfl (by decide) rfl

/-! ## Claim C4 — exceptions during the symbol-table walk -/

/-- C4 fixture, first parse: a well-formed `acl internal` declaration. -/
def c4AstA : ASTNode :=
  rootNode [.mk (some ⟨"ACL", 1, 1, "acl", none⟩) none none false false
    none none (.obj "Name" (identNode 1 5 "internal") .nil)]

def c4DocA : VclDocument :=
  ⟨"file:///c4.vcl", "acl internal \x7b\n\x7d\n", some c4AstA⟩

def c4SymA : DocumentSymbol :=
  ⟨some "internal", .Object, some "ACL",
   ⟨⟨0, 0⟩, ⟨1, 2⟩⟩, ⟨⟨0, 4⟩, ⟨0, 12⟩⟩, none⟩

/-- C4 fixture, second parse of the same uri: a `BACKEND` node without a
`Name` field — `getSymbol` reads `node.Name.Value` and throws. -/
def c4AstB : ASTNode :=
  rootNode [.mk (some ⟨"BACKEND", 1, 1, "backend", none⟩) none none false
    false none none .nil]

def c4DocB : VclDocument :=
  ⟨"file:///c4.vcl", "backend origin \x7b\n\x7d\n", some c4AstB⟩

/-- C4 counterexample: the second walk throws, and afterwards the document
is *not* treated as having no symbols: `getSymbolInformation` still
returns the one symbol cached by the first parse (the `catch` block
returns without touching the cache). -/
theorem c4_stale_symbols_after_exception :
    buildSymbolsWalk c4DocB c4AstB = .error () ∧
    updateDocumentSymbols (updateDocumentSymbols [] c4DocA) c4DocB =
      [("file:///c4.vcl", [c4SymA])] ∧
    (getSymbolInformation
      (updateDocumentSymbols (updateDocumentSymbols [] c4DocA) c4DocB)
      c4DocB).length = 1 :=
  ⟨rfl, rfl, rfl⟩

/-- C4 amended: on an exception during the walk the builder aborts and
leaves the cache *unchanged* — the document is subsequently treated as
having whatever symbol list was previously cached (so: never a partial
list, but also not necessarily an empty one). -/
theorem c4_amended_exception_leaves_cache
    (cache : SymbolCache) (vclDoc : VclDocument) (ast : ASTNode)
    (hast : vclDoc.ast = some ast)
    (herr : buildSymbolsWalk vclDoc ast = .error ()) :
    updateDocumentSymbols cache vclDoc = cache ∧
    getSymbolInformation (updateDocumentSymbols cache vclDoc) vclDoc =
      (cacheGet cache vclDoc.uri).getD [] := by
  have h1 : updateDocumentSymbols cache vclDoc = cache := by
    rw [updateDocumentSymbols, hast]
    dsimp only
    rw [herr]
  exact ⟨h1, by rw [h1, getSymbolInformation]⟩

/-- C4 amended, witness: with the first parse's symbol cached, the
throwing walk leaves it visible unchanged. -/
theorem c4_amended_witness :
    updateDocumentSymbols [("file:///c4.vcl", [c4SymA])] c4DocB =
      [("file:///c4.vcl", [c4SymA])] ∧
    getSymbolInformation
      (updateDocumentSymbols [("file:///c4.vcl", [c4SymA])] c4DocB)
      c4DocB = [c4SymA] :=
  c4_amended_exception_leaves_cache [("file:///c4.vcl", [c4SymA])] c4DocB
    c4AstB rfl rfl

/-! ## Regex machinery for the global-usage patterns

The references/rename providers search raw text with four fixed regexes
(one per symbol kind).  Each is implemented here as a deterministic
matcher `… → Option Nat` giving, for a match *starting exactly at* index
`i`, the end index of the whole match.  For these particular patterns
greedy `\s*`/`\s+` never needs backtracking because the searched name
(always a `getWord` result) contains no whitespace; the two alternations
(`lookup|contains`, `req|bereq`) are tried left to right with full
continuation backtracking, exactly as a JS regex engine does. -/

/-- JS `\s` (the whitespace characters relevant to source text). -/
def isSpaceJS (c : Char) : Bool :=
  c = ' ' || c = '\t' || c = '\n' || c = '\r' || c = '\x0b' || c = '\x0c'

/-- JS `\w`. -/
def isWordJS (c : Char) : Bool :=
  c.isAlphanum || c = '_'

/-- JS `\b` between positions `m-1` and `m` of `s`. -/
def wordBoundaryAt (s : List Char) (m : Nat) : Bool :=
  let prev := if m = 0 then false else ((s.get? (m - 1)).map isWordJS).getD false
  let next := ((s.get? m).map isWordJS).getD false
  prev != next

/-- Match a literal at index `i`, returning the index after it. -/
def matchLit (s : List Char) (i : Nat) (lit : List Char) : Option Nat :=
  if (s.drop i).take lit.length = lit then some (i + lit.length) else none

/-- Skip `\s*` (maximal run) from index `i`. -/
def skipWs (s : List Char) (i : Nat) : Nat :=
  i + ((s.drop i).takeWhile isSpaceJS).length

/-- `!?~\s*(name)\b` at index `i` (ACL usage). -/
def matchAclAt (name s : List Char) (i : Nat) : Option Nat := do
  let j ← if s.get? i = some '!' && s.get? (i + 1) = some '~' then some (i + 2)
          else if s.get? i = some '~' then some (i + 1)
          else none
  let m ← matchLit s (skipWs s j) name
  if wordBoundaryAt s m then some m else none

/-- The `\s*\(\s*(name)\b` tail of the table pattern. -/
def matchTableTail (name s : List Char) (j : Nat) : Option Nat := do
  let k ← matchLit s (skipWs s j) ['(']
  let m ← matchLit s (skipWs s k) name
  if wordBoundaryAt s m then some m else none

/-- `table\.(lookup|contains)\s*\(\s*(name)\b` at index `i` (table usage). -/
def matchTableAt (name s : List Char) (i : Nat) : Option Nat :=
  match matchLit s i "table.".toList with
  | none => none
  | some j =>
    match (matchLit s j "lookup".toList).bind (matchTableTail name s) with
    | some m => some m
    | none => (matchLit s j "contains".toList).bind (matchTableTail name s)

/-- The `\.backend\s*=\s*(name)\b` tail of the backend pattern. -/
def matchBackendTail (name s : List Char) (j : Nat) : Option Nat := do
  let j2 ← matchLit s j ".backend".toList
  let k ← matchLit s (skipWs s j2) ['=']
  let m ← matchLit s (skipWs s k) name
  if wordBoundaryAt s m then some m else none

/-- `(req|bereq)\.backend\s*=\s*(name)\b` at index `i` (backend usage). -/
def matchBackendAt (name s : List Char) (i : Nat) : Option Nat :=
  match (matchLit s i "req".toList).bind (matchBackendTail name s) with
  | some m => some m
  | none => (matchLit s i "bereq".toList).bind (matchBackendTail name s)

/-- `call\s+(name)\s*;` at index `i` (subroutine usage). -/
def matchCallAt (name s : List Char) (i : Nat) : Option Nat := do
  let j ← matchLit s i "call".toList
  let k := skipWs s j
  if k = j then none
  else do
    let m ← matchLit s k name
    matchLit s (skipWs s m) [';']

/-- `RegExp.prototype.exec` in a `g`-flag loop: starting from index 0,
find the leftmost match, record its `(start, end)` window, continue from
its end (all four patterns only produce non-empty matches).  The fuel is
`s.length + 1`, enough for the scan index to cross the whole text. -/
def execScan (matchAt : Nat → Option Nat) (s : List Char) :
    Nat → Nat → List (Nat × Nat)
  | 0, _ => []
  | fuel + 1, i =>
    if i > s.length then []
    else
      match matchAt i with
      | some m =>
        if m > i then (i, m) :: execScan matchAt s fuel m
        else (i, m) :: execScan matchAt s fuel (i + 1)
      | none => execScan matchAt s fuel (i + 1)

/-- All match windows of a pattern over `s`. -/
def matchesOf (matchAt : Nat → Option Nat) (s : List Char) :
    List (Nat × Nat) :=
  execScan matchAt s (s.length + 1) 0

/-- `RegExp.prototype.test`: does the pattern match anywhere? -/
def testPattern (matchAt : Nat → Option Nat) (s : List Char) : Bool :=
  (List.range (s.length + 1)).any (fun i => (matchAt i).isSome)

/-- JS `String.prototype.lastIndexOf` of a substring, `-1` when absent. -/
def lastIndexOfList (sub l : List Char) : Int :=
  match ((List.range (l.length + 1)).filter
      (fun i => (l.drop i).take sub.length = sub)).getLast? with
  | some i => (i : Int)
  | none => -1

/-- An LSP `Location`. -/
structure Location where
  uri : String
  range : Range
deriving DecidableEq, Repr

/-- The matcher selected by `patterns[symbolType || ""]` in `findUsages` /
`getUsageRenameEdits` (the name, a `getWord` result, is regex-escaped in
the source and therefore matched literally). -/
def patternFor (symbolType : String) (name : List Char) :
    Option (List Char → Nat → Option Nat) :=
  if symbolType = "ACL" then some (matchAclAt name)
  else if symbolType = "TABLE" then some (matchTableAt name)
  else if symbolType = "BACKEND" then some (matchBackendAt name)
  else if symbolType = "SUBROUTINE" then some (matchCallAt name)
  else none

/-- The name-capture offsets (start of the renamed span within the text)
computed by the `while ((match = pattern.exec(text)))` loops: for each
match window, `findNameIndex` takes the *last* occurrence of the name in
the match text (skipping the match when absent, which cannot happen since
every pattern ends with the name capture). -/
def usageNameOffsets (matchAt : List Char → Nat → Option Nat)
    (name text : List Char) : List Nat :=
  (matchesOf (matchAt text) text).filterMap (fun w =>
    let matchText := (text.drop w.1).take (w.2 - w.1)
    let nameIndex := lastIndexOfList name matchText
    if nameIndex = -1 then none
    else some (w.1 + nameIndex.toNat))

/-- `findUsages` (references provider): one `Location` per pattern match,
spanning the name capture, positions computed by `positionAt`. -/
def findUsages (doc : VclDocument) (name : String)
    (symbolType : Option String) : List Location :=
  let text := doc.getText
  match patternFor (symbolType.getD "") name.toList with
  | none => []
  | some matchAt =>
    (usageNameOffsets matchAt name.toList text).map (fun startOffset =>
      ⟨doc.uri, ⟨positionAt text startOffset,
                 positionAt text (startOffset + name.length)⟩⟩)

/-- `detectSymbolTypeFromUsage` (identical in the references and rename
providers): test the cursor's line against the four usage patterns in
order. -/
def detectSymbolTypeFromUsage (doc : VclDocument) (position : Pos)
    (word : String) : Option String :=
  let lineText := doc.getLine position
  if testPattern (matchAclAt word.toList lineText) lineText then some "ACL"
  else if testPattern (matchTableAt word.toList lineText) lineText then
    some "TABLE"
  else if testPattern (matchBackendAt word.toList lineText) lineText then
    some "BACKEND"
  else if testPattern (matchCallAt word.toList lineText) lineText then
    some "SUBROUTINE"
  else none

example :
    matchesOf (matchCallAt "foo".toList "x call foo; call foo;".toList)
      "x call foo; call foo;".toList = [(2, 11), (12, 21)] := by decide

example :
    usageNameOffsets (matchCallAt "foo".toList) "foo".toList
      "x call foo; call foo;".toList = [7, 17] := by decide

example :
    matchesOf (matchAclAt "internal".toList "(client.ip ~ internal)".toList)
      "(client.ip ~ internal)".toList = [(11, 21)] := by decide

example :
    detectSymbolTypeFromUsage
      ⟨"u", "if (client.ip ~ internal) \x7b", none⟩ ⟨0, 17⟩ "internal" =
      some "ACL" := by decide

example :
    matchesOf
      (matchTableAt "redirects".toList "table.lookup(redirects, req.url)".toList)
      "table.lookup(redirects, req.url)".toList = [(0, 22)] := by decide

example :
    matchesOf (matchBackendAt "origin".toList "set req.backend = origin;".toList)
      "set req.backend = origin;".toList = [(4, 24)] := by decide

/-! ## Local-variable resolution (shared verbatim by the references and
rename providers — both files contain identical copies of
`findContainingSubroutine`, `isLocalVariableOrParameter`,
`findDeclarationLocation` and `findVariableUsagesInBlock`). -/

/-- A `SymbolLocation`/`VariableLocation` record. -/
structure SymbolLocation where
  name : String
  line : Int
  position : Int
  length : Int
deriving DecidableEq, Repr

/-- Read a node's token, throwing (`TypeError`) when absent. -/
def tokOf (n : ASTNode) : Except Unit Token :=
  match n.token with
  | some t => .ok t
  | none => .error ()

/-- `findContainingSubroutine`: walk the whole AST; every
`SUBROUTINE`-token node with a `Block` whose line span (`Token.Line - 1`
to `Block.EndLine - 1`, falling back to the start line when `EndLine` is
absent or `0`) contains the position overwrites the previous candidate —
the last such node in walk order wins. -/
def findContainingSubroutine (ast : ASTNode) (position : Pos) :
    Option ASTNode :=
  (walkAST ast).foldl (fun containingSub node =>
    match node.token with
    | some t =>
      if t.type = "SUBROUTINE" then
        match node.getObj "Block" with
        | some block =>
          let startLine := t.line - 1
          let endLine :=
            match block.endLine with
            | some e => if e = 0 then startLine else e - 1
            | none => startLine
          if startLine ≤ position.line ∧ position.line ≤ endLine then
            some node
          else containingSub
        | none => containingSub
      else containingSub
    | none => containingSub) none

/-- Does some parameter's `Name.Value` equal `name`? -/
def paramHasName (params : List ASTNode) (name : String) : Bool :=
  params.any (fun p => (p.getObj "Name").any (fun n => n.value = some name))

/-- Is `node` a `declare` statement declaring `name`? -/
def isDeclareOf (name : String) (node : ASTNode) : Bool :=
  (node.token.any (fun t => t.type = "DECLARE")) &&
  ((node.getObj "Name").any (fun n => n.value = some name))

/-- `isLocalVariableOrParameter`: `name` is a parameter of the subroutine
or declared by a `declare` statement in its block. -/
def isLocalVariableOrParameter (containingSub : ASTNode) (name : String) :
    Bool :=
  (match containingSub.getArr "Parameters" with
   | some params => paramHasName params name
   | none => false) ||
  (match containingSub.getObj "Block" with
   | some block => (walkAST block).any (isDeclareOf name)
   | none => false)

/-- The parameter-declaration location of `name` (first matching
parameter); reading `param.Name.Token` throws when the token is absent. -/
def paramDeclLocation (params : List ASTNode) (name : String) :
    Except Unit (Option SymbolLocation) :=
  match params.find?
      (fun p => (p.getObj "Name").any (fun n => n.value = some name)) with
  | some p =>
    match p.getObj "Name" with
    | some nameNode => do
      let t ← tokOf nameNode
      .ok (some ⟨name, t.line - 1, t.position - 1,
        (t.literal.length : Int)⟩)
    | none => .error ()
  | none => .ok none

/-- The `declare`-statement location of `name` in a block (first matching
node in walk order); reading `node.Name.Token` throws when absent. -/
def declareDeclLocation (block : ASTNode) (name : String) :
    Except Unit (Option SymbolLocation) :=
  match (walkAST block).find? (isDeclareOf name) with
  | some node =>
    match node.getObj "Name" with
    | some nameNode => do
      let t ← tokOf nameNode
      .ok (some ⟨name, t.line - 1, t.position - 1,
        (t.literal.length : Int)⟩)
    | none => .error ()
  | none => .ok none

/-- `findDeclarationLocation`: parameters first, then `declare`
statements in the block. -/
def findDeclarationLocation (containingSub : ASTNode) (name : String) :
    Except Unit (Option SymbolLocation) := do
  let fromParams ←
    match containingSub.getArr "Parameters" with
    | some params => paramDeclLocation params name
    | none => pure none
  match fromParams with
  | some loc => pure (some loc)
  | none =>
    match containingSub.getObj "Block" with
    | some block => declareDeclLocation block name
    | none => pure none

/-- `findVariableUsagesInBlock`: every `IDENT`-token node in the block
whose `Value` equals `name` (the guard `node.Token?.Type === "IDENT"`
guarantees the token accesses cannot throw). -/
def findVariableUsagesInBlock (containingSub : ASTNode) (name : String) :
    List SymbolLocation :=
  match containingSub.getObj "Block" with
  | none => []
  | some block =>
    (walkAST block).filterMap (fun node =>
      match node.token with
      | some t =>
        if t.type = "IDENT" && node.value = some name then
          some ⟨name, t.line - 1, t.position - 1, (t.literal.length : Int)⟩
        else none
      | none => none)

/-- A `SymbolLocation` rendered as the single-line LSP range the
providers build from it. -/
def SymbolLocation.toRange (l : SymbolLocation) : Range :=
  ⟨⟨l.line, l.position⟩, ⟨l.line, l.position + l.length⟩⟩

/-- `findLocalVariableReferences` (references provider): scope-limited
references of a local variable or parameter. -/
def findLocalVariableReferences (doc : VclDocument) (name : String)
    (position : Pos) (includeDeclaration : Bool) :
    Except Unit (List Location) := do
  match doc.ast with
  | none => return []
  | some ast =>
    match findContainingSubroutine ast position with
    | none => return []
    | some containingSub =>
      if !isLocalVariableOrParameter containingSub name then return []
      else do
        let declRefs ←
          if includeDeclaration then do
            let decl ← findDeclarationLocation containingSub name
            match decl with
            | some d => pure [(⟨doc.uri, d.toRange⟩ : Location)]
            | none => pure []
          else pure []
        let usages := findVariableUsagesInBlock containingSub name
        return declRefs ++ usages.map (fun u => (⟨doc.uri, u.toRange⟩ : Location))

/-! ## Document cache (src/server/src/shared/documentCache.ts) -/

/-- The filesystem seen by `readFileSync`: a map from uri to content, or a
read error that `readFileSync` throws. -/
abbrev FileSystem := String → Except String String

/-- The cache's backing `Map<string, VclDocument>`, as explicit state. -/
abbrev DocCache := List (String × VclDocument)

/-- `DocumentCache._loadContent`: synchronous read + fresh document (no
AST); a read failure propagates as an exception. -/
def loadContent (fs : FileSystem) (uri : String) :
    Except String VclDocument :=
  match fs uri with
  | .ok text => .ok ⟨uri, text, none⟩
  | .error e => .error e

/-- `DocumentCache.get(uri, alwaysCache)`: return the cached document; on
a miss with `alwaysCache` (the default is `true`), load from disk and
insert into the cache as a side effect — the updated cache is returned
alongside.  A read exception propagates. -/
def DocumentCache.get (fs : FileSystem) (c : DocCache) (uri : String)
    (alwaysCache : Bool) : Except String (Option VclDocument × DocCache) :=
  match List.lookup uri c with
  | some doc => .ok (some doc, c)
  | none =>
    if alwaysCache then
      match loadContent fs uri with
      | .ok doc => .ok (some doc, (uri, doc) :: c)
      | .error e => .error e
    else .ok (none, c)

/-- Lift a JS `TypeError` into the string-error monad of the providers. -/
def liftJs {α : Type} : Except Unit α → Except String α
  | .ok a => .ok a
  | .error () => .error "TypeError"

/-- The parameters of a references request. -/
structure ReferenceParams where
  uri : String
  position : Pos
  includeDeclaration : Bool

/-- The `inRange` test of the references/rename `resolve` functions: the
position lies within the symbol's selection range, lines and characters
compared independently. -/
def inSelectionRange (s : DocumentSymbol) (position : Pos) : Bool :=
  decide (s.selectionRange.start.line ≤ position.line) &&
  decide (position.line ≤ s.selectionRange.stop.line) &&
  decide (s.selectionRange.start.character ≤ position.character) &&
  decide (position.character ≤ s.selectionRange.stop.character)

/-- The three-stage symbol lookup shared by the references and rename
`resolve` functions: (1) a symbol whose selection range contains the
cursor and whose name is the word; (2) failing that, a symbol whose
`detail` matches the usage pattern detected on the cursor's line;
(3) failing that, any symbol with the word as name. -/
def lookupGlobalSymbol (symbols : List DocumentSymbol) (doc : VclDocument)
    (position : Pos) (word : String) : Option DocumentSymbol :=
  let symbol₀ := symbols.find? (fun s =>
    decide (s.name = some word) && inSelectionRange s position)
  let symbol₁ :=
    match symbol₀ with
    | some s => some s
    | none =>
      match detectSymbolTypeFromUsage doc position word with
      | some symbolType =>
        symbols.find? (fun s =>
          decide (s.name = some word) && decide (s.detail = some symbolType))
      | none => none
  match symbol₁ with
  | some s => some s
  | none => symbols.find? (fun s => decide (s.name = some word))

/-- `resolve` (src/server/src/references-provider/index.ts): local
variable references first; otherwise global-symbol references — the
declaration's selection range when `includeDeclaration`, followed by the
pattern-based usages.  Note `documentCache.get` is called with its
default `alwaysCache = true`, so the call can throw on a never-opened,
unreadable uri. -/
def referencesResolve (fs : FileSystem) (cache : DocCache)
    (symbolCache : SymbolCache) (params : ReferenceParams) :
    Except String (List Location) := do
  let got ← DocumentCache.get fs cache params.uri true
  match got.1 with
  | none => return []
  | some doc =>
    let word := doc.getWord params.position
    if word = "" then return []
    else do
      let localReferences ←
        match doc.ast with
        | some _ =>
          liftJs (findLocalVariableReferences doc word params.position
            params.includeDeclaration)
        | none => pure []
      if localReferences.length > 0 then return localReferences
      else do
        let symbols := getSymbolInformation symbolCache doc
        match lookupGlobalSymbol symbols doc params.position word with
        | none => return []
        | some symbol =>
          let declRefs :=
            if params.includeDeclaration then
              [(⟨params.uri, symbol.selectionRange⟩ : Location)]
            else []
          return declRefs ++ findUsages doc word symbol.detail

/-! ## Claim C6 — reference coverage for a twice-called subroutine -/

theorem documentCacheGet_hit {fs : FileSystem} {c : DocCache}
    {uri : String} {doc : VclDocument} {b : Bool}
    (h : List.lookup uri c = some doc) :
    DocumentCache.get fs c uri b = .ok (some doc, c) := by
  simp [DocumentCache.get, h]

/-- C6: in a document whose word at the query position is a subroutine
name `S` that is not a local variable there, whose symbol table resolves
`S` to a symbol, and whose text contains exactly two `call S;` usages,
`findReferences` returns 3 locations with `includeDeclaration = true` and
2 without: the declaration contributes exactly one location, prepended to
the pattern-based usages. -/
theorem c6_references_coverage
    (fs : FileSystem) (cache : DocCache) (symbolCache : SymbolCache)
    (uri : String) (position : Pos) (doc : VclDocument) (S : String)
    (sym : DocumentSymbol)
    (hget : List.lookup uri cache = some doc)
    (hword : doc.getWord position = S)
    (hS : ¬ S = "")
    (hlocal : ∀ incl : Bool,
      findLocalVariableReferences doc S position incl = .ok [])
    (hsym : lookupGlobalSymbol (getSymbolInformation symbolCache doc) doc
      position S = some sym)
    (husages : (findUsages doc S sym.detail).length = 2) :
    ((referencesResolve fs cache symbolCache
        ⟨uri, position, true⟩).map List.length = .ok 3) ∧
    ((referencesResolve fs cache symbolCache
        ⟨uri, position, false⟩).map List.length = .ok 2) := by
  constructor <;>
  · rw [referencesResolve, documentCacheGet_hit hget]
    simp only [Bind.bind, Except.bind, hword]
    rw [if_neg hS]
    cases hast : doc.ast with
    | none =>
      simp only [pure, Except.pure]
      simp only [hsym]
      simp [Except.map, husages]
    | some ast =>
      rw [hlocal]
      simp only [liftJs, pure, Except.pure]
      simp only [List.length_nil, gt_iff_lt, lt_self_iff_false, if_false]
      simp only [hsym]
      simp [Except.map, husages]

/-- C6 fixture: `sub greet` declared once, called from `sub a` and
`sub b`. -/
def c6Text : String :=
  "sub greet \x7b\n\x7d\nsub a \x7b\ncall greet;\n\x7d\nsub b \x7b\ncall greet;\n\x7d\n"

/-- A block node carrying only the 1-based `EndLine` of its closing
brace. -/
def blockNode (endLine : Int) : ASTNode :=
  .mk none none none false false (some endLine) none .nil

/-- A subroutine node with a name and a block (line data 1-based). -/
def subWithBlock (line : Int) (namePos : Int) (name : String)
    (endLine : Int) : ASTNode :=
  .mk (some ⟨"SUBROUTINE", line, 1, "sub", none⟩) none none false false
    none none
    (.obj "Name" (identNode line namePos name)
      (.obj "Block" (blockNode endLine) .nil))

def c6Ast : ASTNode :=
  rootNode [subWithBlock 1 5 "greet" 2, subWithBlock 3 5 "a" 5,
            subWithBlock 6 5 "b" 8]

def c6Doc : VclDocument := ⟨"file:///c6.vcl", c6Text, some c6Ast⟩

/-- C6 witness: the full pipeline (symbol table built by
`updateDocumentSymbols`, references resolved at the declaration of
`greet`) returns 3 and 2 locations. -/
theorem c6_references_coverage_witness :
    ((referencesResolve (fun _ => .error "ENOENT")
        [("file:///c6.vcl", c6Doc)]
        (updateDocumentSymbols [] c6Doc)
        ⟨"file:///c6.vcl", ⟨0, 4⟩, true⟩).map List.length = .ok 3) ∧
    ((referencesResolve (fun _ => .error "ENOENT")
        [("file:///c6.vcl", c6Doc)]
        (updateDocumentSymbols [] c6Doc)
        ⟨"file:///c6.vcl", ⟨0, 4⟩, false⟩).map List.length = .ok 2) :=
  c6_references_coverage (fun _ => .error "ENOENT") _ _ _ _ c6Doc "greet" _
    rfl rfl (by decide) (fun incl => by cases incl <;> rfl) rfl rfl

/-! ## Rename provider (src/server/src/rename-provider/index.ts) -/

/-- `BUILTIN_SUBROUTINES`: the protected lifecycle subroutines. -/
def BUILTIN_SUBROUTINES : List String :=
  ["vcl_recv", "vcl_hash", "vcl_hit", "vcl_miss", "vcl_pass", "vcl_fetch",
   "vcl_error", "vcl_deliver", "vcl_log"]

/-- The `[a-zA-Z0-9_-]` class of `HTTP_HEADER_PATTERN`. -/
def isHeaderChar (c : Char) : Bool :=
  c.isAlphanum || c = '_' || c = '-'

/-- The `[a-zA-Z0-9_-]+(:[a-zA-Z0-9_-]+)?$` tail of the header pattern. -/
def headerTailTest (l : List Char) : Bool :=
  let run := l.takeWhile isHeaderChar
  let rest := l.drop run.length
  decide (1 ≤ run.length) &&
  (match rest with
   | [] => true
   | ':' :: r2 => decide (1 ≤ r2.length) && r2.all isHeaderChar
   | _ => false)

/-- `HTTP_HEADER_PATTERN.test`:
`^(req|resp|bereq|beresp|obj)\.http\.[a-zA-Z0-9_-]+(:[a-zA-Z0-9_-]+)?$`. -/
def httpHeaderPatternTest (s : String) : Bool :=
  ["req", "resp", "bereq", "beresp", "obj"].any (fun p =>
    (s.toList.take p.length = p.toList : Bool) &&
    (let rest := s.toList.drop p.length
     (rest.take 6 = ".http.".toList : Bool) && headerTailTest (rest.drop 6)))

/-- An LSP `TextEdit`. -/
structure TextEdit where
  range : Range
  newText : String
deriving DecidableEq, Repr

/-- JS `String.prototype.indexOf(sub, start)` as an `Int` (`-1` absent). -/
def indexOfFrom (sub l : List Char) (start : Nat) : Int :=
  match (List.range (l.length + 1)).find?
      (fun i => decide (start ≤ i) && (l.drop i).take sub.length = sub) with
  | some i => (i : Int)
  | none => -1

/-- One match of the word regex `[a-zA-Z_][a-zA-Z0-9_-]*` starting exactly
at `i`. -/
def matchWordAt (s : List Char) (i : Nat) : Option Nat :=
  match s.get? i with
  | some c =>
    if c.isAlpha || c = '_' then
      some (i + 1 +
        ((s.drop (i + 1)).takeWhile
          (fun ch => ch.isAlphanum || ch = '_' || ch = '-')).length)
    else none
  | none => none

/-- `findWordIndexInLine`: the start of the word-regex match containing
`charPos` and spelling `word`; otherwise `indexOf` from
`max(0, charPos - word.length)`; otherwise `charPos` itself. -/
def findWordIndexInLine (line word : List Char) (charPos : Int) : Int :=
  match (matchesOf (matchWordAt line) line).find? (fun w =>
      decide ((w.1 : Int) ≤ charPos) && decide (charPos ≤ (w.2 : Int)) &&
      ((line.drop w.1).take (w.2 - w.1) = word : Bool)) with
  | some w => (w.1 : Int)
  | none =>
    let searchStart := (max 0 (charPos - (word.length : Int))).toNat
    let idx := indexOfFrom word line searchStart
    if 0 ≤ idx then idx else charPos

/-- `getWordRange`: the single-line range of the word under the cursor. -/
def getWordRange (doc : VclDocument) (position : Pos) (word : String) :
    Range :=
  let line := doc.getLine position
  let wordIndex := findWordIndexInLine line word.toList position.character
  ⟨⟨position.line, wordIndex⟩,
   ⟨position.line, wordIndex + (word.length : Int)⟩⟩

/-- The per-node step of `getHttpHeaderAtPosition`'s walk: the
`SET`/`UNSET`/`ADD` check on `node.Ident` (whose `Token` read can throw),
then the `IDENT`-node check. -/
def hdrAtNode (node : ASTNode) (position : Pos) :
    Except Unit (Option String) := do
  let first ←
    if node.token.any (fun t =>
        t.type = "SET" || t.type = "UNSET" || t.type = "ADD") then
      match node.getObj "Ident" with
      | some ident =>
        match ident.value with
        | some v =>
          if httpHeaderPatternTest v then do
            let t ← tokOf ident
            pure (if position.line = t.line - 1 ∧
                t.position - 1 ≤ position.character ∧
                position.character ≤ t.position - 1 + (t.literal.length : Int)
              then some v else none)
          else pure none
        | none => pure none
      | none => pure none
    else pure none
  match first with
  | some h => pure (some h)
  | none =>
    match node.token with
    | some t =>
      if t.type = "IDENT" then
        match node.value with
        | some v =>
          if httpHeaderPatternTest v then
            pure (if position.line = t.line - 1 ∧
                t.position - 1 ≤ position.character ∧
                position.character ≤ t.position - 1 + (t.literal.length : Int)
              then some v else none)
          else pure none
        | none => pure none
      else pure none
    | none => pure none

/-- `getHttpHeaderAtPosition`: walk the AST; the first node (in walk
order) whose header-shaped identifier spans the cursor supplies the
header name, and later visits return immediately (`if (headerName)
return`). -/
def getHttpHeaderAtPosition (doc : VclDocument) (position : Pos) :
    Except Unit (Option String) :=
  match doc.ast with
  | none => .ok none
  | some ast =>
    (walkAST ast).foldlM (fun acc node =>
      match acc with
      | some h => pure (some h)
      | none => hdrAtNode node position) none

/-- `getHeaderRange`: the first occurrence of the header name on the
cursor's line, with a cursor-anchored fallback. -/
def getHeaderRange (doc : VclDocument) (position : Pos)
    (headerName : String) : Range :=
  let line := doc.getLine position
  let headerIndex := indexOfFrom headerName.toList line 0
  if 0 ≤ headerIndex then
    ⟨⟨position.line, headerIndex⟩,
     ⟨position.line, headerIndex + (headerName.length : Int)⟩⟩
  else
    ⟨⟨position.line, position.character⟩,
     ⟨position.line, position.character + (headerName.length : Int)⟩⟩

/-- Keep-first dedup by the `${line}:${position}` key used by the header
rename (and highlight) collectors. -/
def dedupStep (acc : List SymbolLocation) (loc : SymbolLocation) :
    List SymbolLocation :=
  if acc.any (fun l => l.line = loc.line && l.position = loc.position) then
    acc
  else acc ++ [loc]

def dedupLocs (locations : List SymbolLocation) : List SymbolLocation :=
  locations.foldl dedupStep []

/-- The per-node collecting step of `getHttpHeaderRenameEdits`: the
`SET`/`UNSET`/`ADD` check (its `node.Ident.Token` read can throw), then
the `IDENT` check with its `alreadyAdded` guard against the accumulated
locations. -/
def hdrLocsAtNode (headerName : String) (acc : List SymbolLocation)
    (node : ASTNode) : Except Unit (List SymbolLocation) := do
  let acc ←
    if node.token.any (fun t =>
        t.type = "SET" || t.type = "UNSET" || t.type = "ADD") &&
       (node.getObj "Ident").any (fun i => i.value = some headerName) then
      match node.getObj "Ident" with
      | some ident => do
        let t ← tokOf ident
        pure (acc ++ [(⟨headerName, t.line - 1, t.position - 1,
          (t.literal.length : Int)⟩ : SymbolLocation)])
      | none => .error ()
    else pure acc
  match node.token with
  | some t =>
    if t.type = "IDENT" && node.value = some headerName then
      if acc.any (fun loc =>
          loc.line = t.line - 1 && loc.position = t.position - 1) then
        pure acc
      else
        pure (acc ++ [(⟨headerName, t.line - 1, t.position - 1,
          (t.literal.length : Int)⟩ : SymbolLocation)])
    else pure acc
  | none => pure acc

/-- `getHttpHeaderRenameEdits`: collect all occurrences of the header
name over the whole AST, dedup by position, one edit per location. -/
def getHttpHeaderRenameEdits (doc : VclDocument)
    (headerName newName : String) : Except Unit (List TextEdit) := do
  match doc.ast with
  | none => return []
  | some ast => do
    let locations ← (walkAST ast).foldlM (hdrLocsAtNode headerName) []
    return (dedupLocs locations).map (fun loc => ⟨loc.toRange, newName⟩)

/-- `getLocalVariableRenameEdits`: one edit for the declaration plus one
per usage in the enclosing subroutine's block, skipping the usage that
coincides with the declaration. -/
def getLocalVariableRenameEdits (doc : VclDocument) (name : String)
    (position : Pos) (newName : String) : Except Unit (List TextEdit) := do
  match doc.ast with
  | none => return []
  | some ast =>
    match findContainingSubroutine ast position with
    | none => return []
    | some containingSub =>
      if !isLocalVariableOrParameter containingSub name then return []
      else do
        let declaration ← findDeclarationLocation containingSub name
        let declEdits :=
          match declaration with
          | some d => [(⟨d.toRange, newName⟩ : TextEdit)]
          | none => []
        let usages := findVariableUsagesInBlock containingSub name
        let usageEdits := usages.filterMap (fun u =>
          match declaration with
          | some d =>
            if u.line = d.line ∧ u.position = d.position then none
            else some (⟨u.toRange, newName⟩ : TextEdit)
          | none => some (⟨u.toRange, newName⟩ : TextEdit))
        return declEdits ++ usageEdits

/-- `getUsageRenameEdits`: one edit per pattern-based usage (the same
match loop as `findUsages`). -/
def getUsageRenameEdits (doc : VclDocument) (name : String)
    (symbolType : Option String) (newName : String) : List TextEdit :=
  let text := doc.getText
  match patternFor (symbolType.getD "") name.toList with
  | none => []
  | some matchAt =>
    (usageNameOffsets matchAt name.toList text).map (fun startOffset =>
      ⟨⟨positionAt text startOffset, positionAt text (startOffset + name.length)⟩,
       newName⟩)

structure PrepareRenameParams where
  uri : String
  position : Pos

structure RenameParams where
  uri : String
  position : Pos
  newName : String

/-- `prepare` (rename provider): `null` for a missing word or a protected
built-in subroutine name; otherwise the word's range and placeholder,
trying header, local, global-by-name, usage-inferred and finally any
identifier, in that order. -/
def renamePrepare (fs : FileSystem) (cache : DocCache)
    (symbolCache : SymbolCache) (params : PrepareRenameParams) :
    Except String (Option (Range × String)) := do
  let got ← DocumentCache.get fs cache params.uri true
  match got.1 with
  | none => return none
  | some doc =>
    let word := doc.getWord params.position
    if word = "" then return none
    else if BUILTIN_SUBROUTINES.contains word then return none
    else do
      let hdr ←
        match doc.ast with
        | some _ => liftJs (getHttpHeaderAtPosition doc params.position)
        | none => pure none
      let headerHit :=
        match hdr with
        | some headerName =>
          if httpHeaderPatternTest headerName then some headerName else none
        | none => none
      match headerHit with
      | some headerName =>
        return some (getHeaderRange doc params.position headerName, headerName)
      | none =>
        let localHit :=
          match doc.ast with
          | some ast =>
            match findContainingSubroutine ast params.position with
            | some containingSub =>
              isLocalVariableOrParameter containingSub word
            | none => false
          | none => false
        if localHit then
          return some (getWordRange doc params.position word, word)
        else
          match findSymbolByName symbolCache doc.uri word with
          | some _ => return some (getWordRange doc params.position word, word)
          | none =>
            let usageHit : Bool :=
              match detectSymbolTypeFromUsage doc params.position word with
              | some symbolType =>
                ((getSymbolInformation symbolCache doc).find? (fun s =>
                  decide (s.name = some word) &&
                  decide (s.detail = some symbolType))).isSome
              | none => false
            if usageHit then
              return some (getWordRange doc params.position word, word)
            else
              return some (getWordRange doc params.position word, word)

/-- `resolve` (rename provider): `null` for a missing word or a protected
built-in; otherwise the header-edit set, else the local-variable edit
set, else the global edit set (declaration selection range first, then
the pattern-based usages).  The `WorkspaceEdit`'s single-uri change list
is modelled as the edit list itself. -/
def renameResolve (fs : FileSystem) (cache : DocCache)
    (symbolCache : SymbolCache) (params : RenameParams) :
    Except String (Option (List TextEdit)) := do
  let got ← DocumentCache.get fs cache params.uri true
  match got.1 with
  | none => return none
  | some doc =>
    let word := doc.getWord params.position
    if word = "" then return none
    else if BUILTIN_SUBROUTINES.contains word then return none
    else do
      let hdr ←
        match doc.ast with
        | some _ => liftJs (getHttpHeaderAtPosition doc params.position)
        | none => pure none
      let headerEdits ←
        match hdr with
        | some headerName =>
          if httpHeaderPatternTest headerName then
            liftJs (getHttpHeaderRenameEdits doc headerName params.newName)
          else pure []
        | none => pure []
      if headerEdits.length > 0 then return some headerEdits
      else do
        let localEdits ←
          match doc.ast with
          | some _ =>
            liftJs (getLocalVariableRenameEdits doc word params.position
              params.newName)
          | none => pure []
        if localEdits.length > 0 then return some localEdits
        else
          match lookupGlobalSymbol (getSymbolInformation symbolCache doc)
              doc params.position word with
          | none => return none
          | some symbol =>
            return some
              ([(⟨symbol.selectionRange, params.newName⟩ : TextEdit)] ++
               getUsageRenameEdits doc word symbol.detail params.newName)

/-! ## Document highlight provider (documentHighlightProvider, in the
same server source tree; `resolve`, `findHighlightsFromAST`,
`checkValueNode`, `deduplicateLocations`, `findSymbolHighlights`). -/

/-- The provider's `IdentifierLocation`. -/
structure IdentifierLocation where
  value : String
  line : Int
  position : Int
  length : Int
  isWrite : Bool
deriving DecidableEq, Repr

/-- An LSP `DocumentHighlight`; `isWrite` models
`DocumentHighlightKind.Write` vs `.Read`. -/
structure DocumentHighlight where
  range : Range
  isWrite : Bool
deriving DecidableEq, Repr

/-- `checkValueNode`: the `IDENT` check (with its `alreadyAdded` guard)
and the function-call check (whose `node.Function.Token` reads can
throw). -/
def checkValueNode (node : ASTNode) (word : String)
    (acc : List IdentifierLocation) :
    Except Unit (List IdentifierLocation) := do
  let acc ←
    match node.token with
    | some t =>
      if t.type = "IDENT" && node.value = some word then
        if acc.any (fun loc =>
            loc.line = t.line - 1 && loc.position = t.position - 1) then
          pure acc
        else
          pure (acc ++ [(⟨word, t.line - 1, t.position - 1,
            (t.literal.length : Int), false⟩ : IdentifierLocation)])
      else pure acc
    | none => pure acc
  if (node.getObj "Function").any (fun f => f.value = some word) then
    match node.getObj "Function" with
    | some f => do
      let t ← tokOf f
      if acc.any (fun loc =>
          loc.line = t.line - 1 && loc.position = t.position - 1) then
        pure acc
      else
        pure (acc ++ [(⟨word, t.line - 1, t.position - 1,
          (t.literal.length : Int), false⟩ : IdentifierLocation)])
    | none => .error ()
  else pure acc

/-- The token types treated as declarations by the `Name`-field check. -/
def highlightDeclKinds : List String :=
  ["ACL", "TABLE", "BACKEND", "DIRECTOR", "SUBROUTINE", "DECLARE",
   "PENALTYBOX", "RATECOUNTER"]

/-- One visit of `findHighlightsFromAST`'s walk callback: the ten checks,
in source order, each appending matching occurrences to the accumulated
location list. -/
def hlAtNode (word : String) (acc : List IdentifierLocation)
    (node : ASTNode) : Except Unit (List IdentifierLocation) := do
  -- IDENT nodes
  let acc :=
    match node.token with
    | some t =>
      if t.type = "IDENT" && node.value = some word then
        acc ++ [(⟨word, t.line - 1, t.position - 1,
          (t.literal.length : Int), false⟩ : IdentifierLocation)]
      else acc
    | none => acc
  -- Name fields of declarations
  let acc :=
    match node.getObj "Name" with
    | some nameNode =>
      match nameNode.token with
      | some nt =>
        if nt.type = "IDENT" && nameNode.value = some word then
          let isDeclaration :=
            node.token.any (fun t => highlightDeclKinds.contains t.type)
          acc ++ [(⟨word, nt.line - 1, nt.position - 1,
            (nt.literal.length : Int), isDeclaration⟩ : IdentifierLocation)]
        else acc
      | none => acc
    | none => acc
  -- SET / UNSET / ADD statements (their `node.Ident.Token` reads throw
  -- when the token is absent)
  let setStep := fun (kind : String) (acc : List IdentifierLocation) =>
    if node.token.any (fun t => t.type = kind) &&
       (node.getObj "Ident").any (fun i => i.value = some word) then
      match node.getObj "Ident" with
      | some ident => do
        let t ← tokOf ident
        pure (acc ++ [(⟨word, t.line - 1, t.position - 1,
          (t.literal.length : Int), true⟩ : IdentifierLocation)])
      | none => Except.error ()
    else pure acc
  let acc ← setStep "SET" acc
  let acc ← setStep "UNSET" acc
  let acc ← setStep "ADD" acc
  -- function arguments
  let acc :=
    match node.getArr "Arguments" with
    | some args =>
      args.foldl (fun acc arg =>
        match arg.token with
        | some t =>
          if t.type = "IDENT" && arg.value = some word then
            acc ++ [(⟨word, t.line - 1, t.position - 1,
              (t.literal.length : Int), false⟩ : IdentifierLocation)]
          else acc
        | none => acc) acc
    | none => acc
  -- parameter declarations (their `param.Name.Token` reads can throw)
  let acc ←
    match node.getArr "Parameters" with
    | some params =>
      params.foldlM (fun acc param =>
        if (param.getObj "Name").any (fun n => n.value = some word) then
          match param.getObj "Name" with
          | some nameNode => do
            let t ← tokOf nameNode
            pure (acc ++ [(⟨word, t.line - 1, t.position - 1,
              (t.literal.length : Int), true⟩ : IdentifierLocation)])
          | none => Except.error ()
        else pure acc) acc
    | none => pure acc
  -- right side of `~` / `!~`
  let acc :=
    match node.getObj "Right" with
    | some right =>
      match right.token with
      | some t =>
        if t.type = "IDENT" && right.value = some word &&
           (node.operator = some "~" || node.operator = some "!~") then
          acc ++ [(⟨word, t.line - 1, t.position - 1,
            (t.literal.length : Int), false⟩ : IdentifierLocation)]
        else acc
      | none => acc
    | none => acc
  -- left side of infix expressions, with the alreadyAdded guard
  let acc :=
    match node.getObj "Left" with
    | some left =>
      match left.token with
      | some t =>
        if t.type = "IDENT" && left.value = some word then
          if acc.any (fun loc =>
              loc.line = t.line - 1 && loc.position = t.position - 1) then
            acc
          else
            acc ++ [(⟨word, t.line - 1, t.position - 1,
              (t.literal.length : Int), false⟩ : IdentifierLocation)]
        else acc
      | none => acc
    | none => acc
  -- call statements (their `node.Subroutine.Token` reads can throw)
  let acc ←
    if node.token.any (fun t => t.type = "CALL") &&
       (node.getObj "Subroutine").any (fun s => s.value = some word) then
      match node.getObj "Subroutine" with
      | some sub => do
        let t ← tokOf sub
        pure (acc ++ [(⟨word, t.line - 1, t.position - 1,
          (t.literal.length : Int), false⟩ : IdentifierLocation)])
      | none => Except.error ()
    else pure acc
  -- return statements with an argument
  let acc ←
    if node.token.any (fun t => t.type = "RETURN") then
      match node.getObj "Argument" with
      | some arg => checkValueNode arg word acc
      | none => pure acc
    else pure acc
  -- if conditions
  let acc ←
    match node.getObj "Condition" with
    | some cond => checkValueNode cond word acc
    | none => pure acc
  -- object-valued `Value` fields carrying a token
  match node.getObj "Value" with
  | some v => if v.token.isSome then checkValueNode v word acc else pure acc
  | none => pure acc

/-- `deduplicateLocations`: keep-first by the `${line}:${position}` key. -/
def deduplicateLocations (locations : List IdentifierLocation) :
    List IdentifierLocation :=
  locations.foldl (fun acc loc =>
    if acc.any (fun l => l.line = loc.line && l.position = loc.position) then
      acc
    else acc ++ [loc]) []

/-- `findHighlightsFromAST`: walk the whole document's AST collecting
every occurrence of the word, dedup, and convert to highlights. -/
def findHighlightsFromAST (doc : VclDocument) (ast : ASTNode)
    (word : String) : Except Unit (List DocumentHighlight) := do
  let locations ← (walkAST ast).foldlM (hlAtNode word) []
  return (deduplicateLocations locations).map (fun loc =>
    ⟨⟨⟨loc.line, loc.position⟩, ⟨loc.line, loc.position + loc.length⟩⟩,
     loc.isWrite⟩)

/-- `findSymbolHighlights`: the AST-less fallback, highlighting just the
definition. -/
def findSymbolHighlights (symbolCache : SymbolCache) (doc : VclDocument)
    (word : String) : List DocumentHighlight :=
  match (getSymbolInformation symbolCache doc).find?
      (fun s => decide (s.name = some word)) with
  | some symbol => [⟨symbol.selectionRange, true⟩]
  | none => []

/-- `resolve` (document highlight provider). -/
def highlightResolve (fs : FileSystem) (cache : DocCache)
    (symbolCache : SymbolCache) (params : PrepareRenameParams) :
    Except String (List DocumentHighlight) := do
  let got ← DocumentCache.get fs cache params.uri true
  match got.1 with
  | none => return []
  | some doc =>
    let word := doc.getWord params.position
    if word = "" then return []
    else
      match doc.ast with
      | some ast => liftJs (findHighlightsFromAST doc ast word)
      | none => return (findSymbolHighlights symbolCache doc word)

/-! ## Claim C7 — scope isolation of local-variable queries -/

/-- A `declare local` statement node (1-based positions). -/
def declareNode (line namePos : Int) (name : String) : ASTNode :=
  .mk (some ⟨"DECLARE", line, 1, "declare", none⟩) none none true false
    none none (.obj "Name" (identNode line namePos name) .nil)

/-- A `set` statement node whose `Ident` is the assigned variable. -/
def setNode (line identPos : Int) (name : String) : ASTNode :=
  .mk (some ⟨"SET", line, 1, "set", none⟩) none none true false
    none none (.obj "Ident" (identNode line identPos name) .nil)

/-- A block node with an `EndLine` and a `Statements` array. -/
def blockWith (endLine : Int) (statements : List ASTNode) : ASTNode :=
  .mk none none none false false (some endLine) none
    (.arr "Statements" (statements.foldr (fun n acc => .cons n acc) .nil) .nil)

/-- C7 fixture: `sub a` (lines 1–4) and `sub b` (lines 5–8), each with
`declare local var.result STRING;` and `set var.result = "…";`. -/
def c7SubA : ASTNode :=
  .mk (some ⟨"SUBROUTINE", 1, 1, "sub", none⟩) none none false false
    none none
    (.obj "Name" (identNode 1 5 "a")
      (.obj "Block"
        (blockWith 4 [declareNode 2 15 "var.result", setNode 3 5 "var.result"])
        .nil))

def c7SubB : ASTNode :=
  .mk (some ⟨"SUBROUTINE", 5, 1, "sub", none⟩) none none false false
    none none
    (.obj "Name" (identNode 5 5 "b")
      (.obj "Block"
        (blockWith 8 [declareNode 6 15 "var.result", setNode 7 5 "var.result"])
        .nil))

def c7Ast : ASTNode := rootNode [c7SubA, c7SubB]

def c7Text : String :=
  "sub a \x7b\ndeclare local var.result STRING;\nset var.result = \"x\";\n\x7d\nsub b \x7b\ndeclare local var.result STRING;\nset var.result = \"y\";\n\x7d\n"

def c7Doc : VclDocument := ⟨"file:///c7.vcl", c7Text, some c7Ast⟩

/-- C7 counterexample: a *highlight* query on `var.result` inside `sub a`
(line 2, the `set` statement) returns occurrences from **both**
subroutines — `findHighlightsFromAST` walks the whole document's AST with
no scope restriction, so lines 5 and 6 (inside `sub b`) appear. -/
theorem c7_highlight_not_scope_isolated :
    highlightResolve (fun _ => .error "ENOENT")
      [("file:///c7.vcl", c7Doc)] [] ⟨"file:///c7.vcl", ⟨2, 4⟩⟩ =
      .ok [⟨⟨⟨1, 14⟩, ⟨1, 24⟩⟩, true⟩, ⟨⟨⟨2, 4⟩, ⟨2, 14⟩⟩, true⟩,
           ⟨⟨⟨5, 14⟩, ⟨5, 24⟩⟩, true⟩, ⟨⟨⟨6, 4⟩, ⟨6, 14⟩⟩, true⟩] ∧
    ([⟨⟨⟨1, 14⟩, ⟨1, 24⟩⟩, true⟩, ⟨⟨⟨2, 4⟩, ⟨2, 14⟩⟩, true⟩,
      ⟨⟨⟨5, 14⟩, ⟨5, 24⟩⟩, true⟩, ⟨⟨⟨6, 4⟩, ⟨6, 14⟩⟩, true⟩] :
        List DocumentHighlight).any
      (fun h => decide (4 ≤ h.range.start.line)) = true := by
  constructor
  · rfl
  · decide

/-- All nodes the resolvers can see inside a subroutine's block. -/
def blockNodesOf (A : ASTNode) : List ASTNode :=
  match A.getObj "Block" with
  | some b => walkAST b
  | none => []

/-- The subroutine's parameter nodes. -/
def paramsOf (A : ASTNode) : List ASTNode :=
  (A.getArr "Parameters").getD []

/-- The node's own token (when present) sits within lines `lo..hi`
(0-based). -/
def tokenLinesWithin (n : ASTNode) (lo hi : Int) : Bool :=
  n.token.all (fun t => decide (lo ≤ t.line - 1) && decide (t.line - 1 ≤ hi))

/-- The node's `Name` child's token (when present) sits within lines
`lo..hi` (0-based). -/
def nameTokenWithin (n : ASTNode) (lo hi : Int) : Bool :=
  (n.getObj "Name").all (fun nameNode =>
    nameNode.token.all (fun t =>
      decide (lo ≤ t.line - 1) && decide (t.line - 1 ≤ hi)))

theorem nameTokenWithin_bounds {n nameNode : ASTNode} {t : Token}
    {lo hi : Int} (hw : nameTokenWithin n lo hi = true)
    (hn : n.getObj "Name" = some nameNode) (ht : nameNode.token = some t) :
    lo ≤ t.line - 1 ∧ t.line - 1 ≤ hi := by
  rw [nameTokenWithin, hn] at hw
  simp only [Option.all_some, ht] at hw
  simp only [Bool.and_eq_true, decide_eq_true_eq] at hw
  exact hw

theorem paramDeclLocation_bounds {params : List ASTNode} {name : String}
    {d : SymbolLocation} {lo hi : Int}
    (h : paramDeclLocation params name = .ok (some d))
    (hp : ∀ p ∈ params, nameTokenWithin p lo hi = true) :
    lo ≤ d.line ∧ d.line ≤ hi := by
  rw [paramDeclLocation] at h
  cases hf : params.find?
      (fun p => (p.getObj "Name").any (fun n => n.value = some name)) with
  | none => rw [hf] at h; cases h
  | some p =>
    rw [hf] at h
    dsimp only at h
    have hmem := List.mem_of_find?_eq_some hf
    cases hn : p.getObj "Name" with
    | none => rw [hn] at h; cases h
    | some nameNode =>
      rw [hn] at h
      cases ht : nameNode.token with
      | none => simp [tokOf, ht, Bind.bind, Except.bind] at h
      | some t =>
        simp only [tokOf, ht] at h
        simp only [Bind.bind, Except.bind, Except.ok.injEq,
          Option.some.injEq] at h
        have := nameTokenWithin_bounds (hp p hmem) hn ht
        cases h
        simpa using this

theorem declareDeclLocation_bounds {block : ASTNode} {name : String}
    {d : SymbolLocation} {lo hi : Int}
    (h : declareDeclLocation block name = .ok (some d))
    (hp : ∀ n ∈ walkAST block, nameTokenWithin n lo hi = true) :
    lo ≤ d.line ∧ d.line ≤ hi := by
  rw [declareDeclLocation] at h
  cases hf : (walkAST block).find? (isDeclareOf name) with
  | none => rw [hf] at h; cases h
  | some node =>
    rw [hf] at h
    dsimp only at h
    have hmem := List.mem_of_find?_eq_some hf
    cases hn : node.getObj "Name" with
    | none => rw [hn] at h; cases h
    | some nameNode =>
      rw [hn] at h
      cases ht : nameNode.token with
      | none => simp [tokOf, ht, Bind.bind, Except.bind] at h
      | some t =>
        simp only [tokOf, ht] at h
        simp only [Bind.bind, Except.bind, Except.ok.injEq,
          Option.some.injEq] at h
        have := nameTokenWithin_bounds (hp node hmem) hn ht
        cases h
        simpa using this

theorem findDeclarationLocation_bounds {A : ASTNode} {name : String}
    {d : SymbolLocation} {lo hi : Int}
    (h : findDeclarationLocation A name = .ok (some d))
    (hblockName : ∀ n ∈ blockNodesOf A, nameTokenWithin n lo hi = true)
    (hparams : ∀ p ∈ paramsOf A, nameTokenWithin p lo hi = true) :
    lo ≤ d.line ∧ d.line ≤ hi := by
  rw [findDeclarationLocation] at h
  cases hpar : A.getArr "Parameters" with
  | none =>
    rw [hpar] at h
    dsimp only at h
    simp only [Bind.bind, Except.bind, pure, Except.pure] at h
    cases hb : A.getObj "Block" with
    | none => rw [hb] at h; cases h
    | some block =>
      rw [hb] at h
      refine declareDeclLocation_bounds h (fun n hn => hblockName n ?_)
      rw [blockNodesOf, hb]
      exact hn
  | some params =>
    rw [hpar] at h
    dsimp only at h
    have hparams' : ∀ p ∈ params, nameTokenWithin p lo hi = true := by
      intro p hp
      exact hparams p (by rw [paramsOf, hpar]; exact hp)
    cases hpd : paramDeclLocation params name with
    | error e => rw [hpd] at h; cases h
    | ok fromParams =>
      rw [hpd] at h
      simp only [Bind.bind, Except.bind] at h
      cases fromParams with
      | some loc =>
        simp only [pure, Except.pure, Except.ok.injEq, Option.some.injEq] at h
        subst h
        exact paramDeclLocation_bounds hpd hparams'
      | none =>
        cases hb : A.getObj "Block" with
        | none => rw [hb] at h; cases h
        | some block =>
          rw [hb] at h
          refine declareDeclLocation_bounds h (fun n hn => hblockName n ?_)
          rw [blockNodesOf, hb]
          exact hn

theorem findVariableUsagesInBlock_bounds {A : ASTNode} {name : String}
    {u : SymbolLocation} {lo hi : Int}
    (hu : u ∈ findVariableUsagesInBlock A name)
    (hblock : ∀ n ∈ blockNodesOf A, tokenLinesWithin n lo hi = true) :
    lo ≤ u.line ∧ u.line ≤ hi := by
  rw [findVariableUsagesInBlock] at hu
  cases hb : A.getObj "Block" with
  | none => rw [hb] at hu; cases hu
  | some block =>
    rw [hb] at hu
    rw [List.mem_filterMap] at hu
    obtain ⟨node, hnode, hf⟩ := hu
    have hw := hblock node (by rw [blockNodesOf, hb]; exact hnode)
    cases ht : node.token with
    | none => rw [ht] at hf; cases hf
    | some t =>
      rw [ht] at hf
      dsimp only at hf
      rw [tokenLinesWithin, ht] at hw
      simp only [Option.all_some, Bool.and_eq_true, decide_eq_true_eq] at hw
      split at hf
      · cases hf
        simpa using hw
      · cases hf

/-- C7 amended: *reference* and *rename* queries on a local variable are
scope-isolated — when the scope resolver picks the subroutine `A` and all
of `A`'s block/parameter tokens lie within lines `loA..hiA`, every
returned location lies within those lines, and none lies in any
line-disjoint range (such as another subroutine `B`'s).  Document
*highlight* queries are **not** scope-isolated (see
`c7_highlight_not_scope_isolated`): they walk the whole document. -/
theorem c7_amended_references_rename_scope_isolated
    (doc : VclDocument) (ast A : ASTNode) (name : String) (position : Pos)
    (loA hiA : Int)
    (hast : doc.ast = some ast)
    (hsub : findContainingSubroutine ast position = some A)
    (hblock : ∀ n ∈ blockNodesOf A, tokenLinesWithin n loA hiA = true)
    (hblockName : ∀ n ∈ blockNodesOf A, nameTokenWithin n loA hiA = true)
    (hparams : ∀ p ∈ paramsOf A, nameTokenWithin p loA hiA = true) :
    (∀ (includeDeclaration : Bool) (refs : List Location),
      findLocalVariableReferences doc name position includeDeclaration =
        .ok refs →
      ∀ loc ∈ refs,
        (loA ≤ loc.range.start.line ∧ loc.range.start.line ≤ hiA) ∧
        ∀ loB hiB : Int, hiA < loB ∨ hiB < loA →
          ¬ (loB ≤ loc.range.start.line ∧ loc.range.start.line ≤ hiB)) ∧
    (∀ (newName : String) (edits : List TextEdit),
      getLocalVariableRenameEdits doc name position newName = .ok edits →
      ∀ e ∈ edits,
        (loA ≤ e.range.start.line ∧ e.range.start.line ≤ hiA) ∧
        ∀ loB hiB : Int, hiA < loB ∨ hiB < loA →
          ¬ (loB ≤ e.range.start.line ∧ e.range.start.line ≤ hiB)) := by
  constructor
  · intro includeDeclaration refs h loc hloc
    rw [findLocalVariableReferences, hast] at h
    dsimp only at h
    rw [hsub] at h
    dsimp only at h
    by_cases hl : isLocalVariableOrParameter A name = true
    · rw [if_neg (by simp [hl])] at h
      have hmain : loA ≤ loc.range.start.line ∧ loc.range.start.line ≤ hiA := by
        cases includeDeclaration with
        | false =>
          simp only [Bool.false_eq_true, if_false, Bind.bind, Except.bind,
            pure, Except.pure, Except.ok.injEq] at h
          subst h
          simp only [List.nil_append, List.mem_map] at hloc
          obtain ⟨u, hu, hloc⟩ := hloc
          subst hloc
          simpa [SymbolLocation.toRange] using
            findVariableUsagesInBlock_bounds hu hblock
        | true =>
          simp only [if_true, Bind.bind, Except.bind] at h
          cases hd : findDeclarationLocation A name with
          | error e => rw [hd] at h; cases h
          | ok dOpt =>
            rw [hd] at h
            cases dOpt with
            | some d =>
              simp only [pure, Except.pure, Except.ok.injEq] at h
              subst h
              rcases List.mem_append.mp hloc with hdm | hum
              · have := findDeclarationLocation_bounds hd hblockName hparams
                simp only [List.mem_singleton] at hdm
                subst hdm
                simpa [SymbolLocation.toRange] using this
              · simp only [List.mem_map] at hum
                obtain ⟨u, hu, hloc⟩ := hum
                subst hloc
                simpa [SymbolLocation.toRange] using
                  findVariableUsagesInBlock_bounds hu hblock
            | none =>
              simp only [pure, Except.pure, Except.ok.injEq] at h
              subst h
              simp only [List.nil_append, List.mem_map] at hloc
              obtain ⟨u, hu, hloc⟩ := hloc
              subst hloc
              simpa [SymbolLocation.toRange] using
                findVariableUsagesInBlock_bounds hu hblock
      exact ⟨hmain, fun loB hiB hd => by omega⟩
    · rw [if_pos (by simp [Bool.not_eq_true] at hl ⊢; exact hl)] at h
      simp only [pure, Except.pure, Except.ok.injEq] at h
      subst h
      cases hloc
  · intro newName edits h e he
    rw [getLocalVariableRenameEdits, hast] at h
    dsimp only at h
    rw [hsub] at h
    dsimp only at h
    by_cases hl : isLocalVariableOrParameter A name = true
    · rw [if_neg (by simp [hl])] at h
      simp only [Bind.bind, Except.bind] at h
      cases hd : findDeclarationLocation A name with
      | error err => rw [hd] at h; cases h
      | ok dOpt =>
        rw [hd] at h
        simp only [pure, Except.pure, Except.ok.injEq] at h
        subst h
        have hmain : loA ≤ e.range.start.line ∧ e.range.start.line ≤ hiA := by
          rcases List.mem_append.mp he with hdm | hum
          · cases dOpt with
            | some d =>
              simp only [List.mem_singleton] at hdm
              subst hdm
              simpa [SymbolLocation.toRange] using
                findDeclarationLocation_bounds hd hblockName hparams
            | none => cases hdm
          · simp only [List.mem_filterMap] at hum
            obtain ⟨u, hu, hef⟩ := hum
            have hb := findVariableUsagesInBlock_bounds hu hblock
            cases dOpt with
            | some d =>
              dsimp only at hef
              by_cases hskip : u.line = d.line ∧ u.position = d.position
              · rw [if_pos hskip] at hef; cases hef
              · rw [if_neg hskip] at hef
                cases hef
                simpa [SymbolLocation.toRange] using hb
            | none =>
              dsimp only at hef
              cases hef
              simpa [SymbolLocation.toRange] using hb
        exact ⟨hmain, fun loB hiB hdj => by omega⟩
    · rw [if_pos (by simp [Bool.not_eq_true] at hl ⊢; exact hl)] at h
      simp only [pure, Except.pure, Except.ok.injEq] at h
      subst h
      cases he

/-- C7 amended, witness: in the two-subroutine fixture, a query inside
`sub a` (lines 0–3) stays within those lines and never touches a
disjoint range such as `sub b`'s lines 4–7. -/
theorem c7_amended_witness :
    (∀ (includeDeclaration : Bool) (refs : List Location),
      findLocalVariableReferences c7Doc "var.result" ⟨2, 4⟩
        includeDeclaration = .ok refs →
      ∀ loc ∈ refs,
        ((0 : Int) ≤ loc.range.start.line ∧ loc.range.start.line ≤ 3) ∧
        ∀ loB hiB : Int, (3 : Int) < loB ∨ hiB < 0 →
          ¬ (loB ≤ loc.range.start.line ∧ loc.range.start.line ≤ hiB)) ∧
    (∀ (newName : String) (edits : List TextEdit),
      getLocalVariableRenameEdits c7Doc "var.result" ⟨2, 4⟩ newName =
        .ok edits →
      ∀ e ∈ edits,
        ((0 : Int) ≤ e.range.start.line ∧ e.range.start.line ≤ 3) ∧
        ∀ loB hiB : Int, (3 : Int) < loB ∨ hiB < 0 →
          ¬ (loB ≤ e.range.start.line ∧ e.range.start.line ≤ hiB)) :=
  c7_amended_references_rename_scope_isolated c7Doc c7Ast c7SubA
    "var.result" ⟨2, 4⟩ 0 3 rfl rfl (by decide) (by decide) (by decide)

/-! ## Claim C9 — protected built-in lifecycle subroutines -/

/-- C9: when the word under the cursor is one of the protected built-in
lifecycle subroutine names, both `prepare` and `resolve` return `null`;
and this rejection is distinguishable from the not-found case, because
`prepare` returns a *non-null* result for every non-empty word that is
not protected (its final fallback accepts any identifier, validation
being deferred to `resolve`). -/
theorem c9_builtin_rename_rejected
    (fs : FileSystem) (cache : DocCache) (symbolCache : SymbolCache)
    (uri : String) (position : Pos) (doc : VclDocument)
    (hget : List.lookup uri cache = some doc)
    (hword : BUILTIN_SUBROUTINES.contains (doc.getWord position) = true) :
    renamePrepare fs cache symbolCache ⟨uri, position⟩ = .ok none ∧
    (∀ newName, renameResolve fs cache symbolCache ⟨uri, position, newName⟩ =
      .ok none) ∧
    (∀ (cache' : DocCache) (uri' : String) (position' : Pos)
       (doc' : VclDocument),
      List.lookup uri' cache' = some doc' →
      ¬ doc'.getWord position' = "" →
      BUILTIN_SUBROUTINES.contains (doc'.getWord position') = false →
      renamePrepare fs cache' symbolCache ⟨uri', position'⟩ ≠ .ok none) := by
  refine ⟨?_, fun newName => ?_, ?_⟩
  · rw [renamePrepare, documentCacheGet_hit hget]
    simp only [Bind.bind, Except.bind]
    try dsimp only
    by_cases hempty : doc.getWord position = ""
    · rw [if_pos hempty]
      rfl
    · rw [if_neg hempty, if_pos hword]
      rfl
  · rw [renameResolve, documentCacheGet_hit hget]
    simp only [Bind.bind, Except.bind]
    try dsimp only
    by_cases hempty : doc.getWord position = ""
    · rw [if_pos hempty]
      rfl
    · rw [if_neg hempty, if_pos hword]
      rfl
  · intro cache' uri' position' doc' hget' hw hnb
    rw [renamePrepare, documentCacheGet_hit hget']
    simp only [Bind.bind, Except.bind]
    try dsimp only
    rw [if_neg hw, if_neg (by rw [hnb]; simp)]
    cases hast' : doc'.ast with
    | none =>
      simp only [pure, Except.pure]
      try dsimp only
      repeat' split
      all_goals simp [pure, Except.pure]
    | some ast =>
      cases hhdr : getHttpHeaderAtPosition doc' position' with
      | error e => simp [liftJs, hhdr, Bind.bind, Except.bind]
      | ok hdrv =>
        simp only [liftJs, hhdr, Bind.bind, Except.bind]
        cases hdrv with
        | some headerName =>
          try dsimp only
          repeat' split
          all_goals simp [pure, Except.pure]
        | none =>
          try dsimp only
          repeat' split
          all_goals simp [pure, Except.pure]

def c9Doc : VclDocument := ⟨"file:///c9.vcl", "sub vcl_recv \x7b\n\x7d\n", none⟩

/-- C9 witness: with the cursor on `vcl_recv`, prepare and resolve reject
with `null`, and any unprotected non-empty word gets a non-null
prepare. -/
theorem c9_builtin_rename_rejected_witness :
    renamePrepare (fun _ => .error "ENOENT") [("file:///c9.vcl", c9Doc)] []
      ⟨"file:///c9.vcl", ⟨0, 4⟩⟩ = .ok none ∧
    (∀ newName, renameResolve (fun _ => .error "ENOENT")
      [("file:///c9.vcl", c9Doc)] []
      ⟨"file:///c9.vcl", ⟨0, 4⟩, newName⟩ = .ok none) ∧
    (∀ (cache' : DocCache) (uri' : String) (position' : Pos)
       (doc' : VclDocument),
      List.lookup uri' cache' = some doc' →
      ¬ doc'.getWord position' = "" →
      BUILTIN_SUBROUTINES.contains (doc'.getWord position') = false →
      renamePrepare (fun _ => .error "ENOENT") cache' []
        ⟨uri', position'⟩ ≠ .ok none) :=
  c9_builtin_rename_rejected (fun _ => .error "ENOENT")
    [("file:///c9.vcl", c9Doc)] [] "file:///c9.vcl" ⟨0, 4⟩ c9Doc rfl
    (by decide)

/-! ## Claim C10 — `DocumentCache.get` on a cache miss -/

/-- C10: for a uri not in the cache, `get` (with its default
`alwaysCache = true`) performs the synchronous read: on failure the
exception propagates — and therefore so does any query entry point such
as `references`/`rename` `resolve` invoked with a never-opened,
unreadable uri, instead of returning its empty/null result; on success
the freshly loaded document is inserted into the cache as a side effect
and returned. -/
theorem c10_cache_miss_reads_and_throws
    (fs : FileSystem) (cache : DocCache) (uri : String)
    (hmiss : List.lookup uri cache = none) :
    (∀ e, fs uri = .error e →
      DocumentCache.get fs cache uri true = .error e ∧
      (∀ (symbolCache : SymbolCache) (position : Pos) (incl : Bool),
        referencesResolve fs cache symbolCache ⟨uri, position, incl⟩ =
          .error e) ∧
      (∀ (symbolCache : SymbolCache) (position : Pos) (newName : String),
        renameResolve fs cache symbolCache ⟨uri, position, newName⟩ =
          .error e)) ∧
    (∀ text, fs uri = .ok text →
      DocumentCache.get fs cache uri true =
        .ok (some ⟨uri, text, none⟩, (uri, ⟨uri, text, none⟩) :: cache) ∧
      List.lookup uri ((uri, (⟨uri, text, none⟩ : VclDocument)) :: cache) =
        some ⟨uri, text, none⟩) := by
  constructor
  · intro e he
    have hget : DocumentCache.get fs cache uri true = .error e := by
      rw [DocumentCache.get, hmiss]
      simp [loadContent, he]
    refine ⟨hget, fun symbolCache position incl => ?_,
      fun symbolCache position newName => ?_⟩
    · rw [referencesResolve, hget]
      rfl
    · rw [renameResolve, hget]
      rfl
  · intro text ht
    constructor
    · rw [DocumentCache.get, hmiss]
      simp [loadContent, ht]
    · simp

/-- C10 witness: an unreadable, never-opened uri makes the cache `get`
and the reference/rename resolvers throw `EACCES`; a readable one is
loaded and cached. -/
theorem c10_cache_miss_witness :
    (∀ e, (fun u => if u = "file:///bad.vcl" then
        (.error "EACCES" : Except String String)
      else .ok "sub f \x7b\n\x7d\n") "file:///bad.vcl" = .error e →
      DocumentCache.get (fun u => if u = "file:///bad.vcl" then
          .error "EACCES" else .ok "sub f \x7b\n\x7d\n") [] "file:///bad.vcl"
        true = .error e ∧
      (∀ (symbolCache : SymbolCache) (position : Pos) (incl : Bool),
        referencesResolve (fun u => if u = "file:///bad.vcl" then
            .error "EACCES" else .ok "sub f \x7b\n\x7d\n") [] symbolCache
          ⟨"file:///bad.vcl", position, incl⟩ = .error e) ∧
      (∀ (symbolCache : SymbolCache) (position : Pos) (newName : String),
        renameResolve (fun u => if u = "file:///bad.vcl" then
            .error "EACCES" else .ok "sub f \x7b\n\x7d\n") [] symbolCache
          ⟨"file:///bad.vcl", position, newName⟩ = .error e)) ∧
    (∀ text, (fun u => if u = "file:///bad.vcl" then
        (.error "EACCES" : Except String String)
      else .ok "sub f \x7b\n\x7d\n") "file:///bad.vcl" = .ok text →
      DocumentCache.get (fun u => if u = "file:///bad.vcl" then
          .error "EACCES" else .ok "sub f \x7b\n\x7d\n") [] "file:///bad.vcl"
        true = .ok (some ⟨"file:///bad.vcl", text, none⟩,
          [("file:///bad.vcl", ⟨"file:///bad.vcl", text, none⟩)]) ∧
      List.lookup "file:///bad.vcl"
        [("file:///bad.vcl", (⟨"file:///bad.vcl", text, none⟩ : VclDocument))] =
        some ⟨"file:///bad.vcl", text, none⟩) :=
  c10_cache_miss_reads_and_throws
    (fun u => if u = "file:///bad.vcl" then .error "EACCES"
      else .ok "sub f \x7b\n\x7d\n") [] "file:///bad.vcl" rfl

/-! ## Semantic tokens provider
(src/server/src/semantic-tokens-provider/index.ts)

The metadata sets `builtinFunctions` (from functions.json) and
`builtinVariables` (name ↦ readonly, from variables.json) are data files,
passed here as parameters. -/

/-- The provider's `TokenInfo`. -/
structure TokenInfo where
  line : Int
  character : Int
  length : Int
  tokenType : Nat
  tokenModifiers : Nat
deriving DecidableEq, Repr

/-- A token covering a lexer token's literal. -/
def mkTok (t : Token) (len : Int) (ty mods : Nat) : TokenInfo :=
  ⟨t.line - 1, t.position - 1, len, ty, mods⟩

/-- The token types whose switch case pushes a bare keyword token. -/
def keywordCaseTypes : List String :=
  ["ADD", "REMOVE", "BREAK", "ELSE", "ELSEIF", "ELSIF", "ERROR",
   "FALLTHROUGH", "GOTO", "IF", "INCLUDE", "IMPORT", "LOG", "RESTART",
   "RETURN", "SYNTHETIC", "SYNTHETIC_BASE64"]

/-- `/^(req|resp|bereq|beresp|obj)\.http\./i` (case-insensitive). -/
def isHttpHeaderPrefix (v : String) : Bool :=
  let l := v.toList.map Char.toLower
  ["req", "resp", "bereq", "beresp", "obj"].any (fun p =>
    (l.take (p.length + 6) = (p ++ ".http.").toList : Bool))

/-- `getVariableToken`: classify a variable access.  `varName` may be the
`undefined` of a missing `Value`: the header regex and set membership
coerce it harmlessly, but `varName.startsWith` throws. -/
def getVariableToken (builtinVariables : String → Option Bool)
    (identNode : ASTNode) (varName : Option String)
    (userObjects : List String) : Except Unit (Option TokenInfo) :=
  match identNode.token with
  | none => .ok none
  | some t =>
    if varName.any isHttpHeaderPrefix then
      .ok (some (mkTok t ((varName.getD "").length : Int) 6 0))
    else if varName.any (fun v => userObjects.contains v) then
      .ok (some (mkTok t ((varName.getD "").length : Int) 3 0))
    else
      match varName with
      | none => .error ()
      | some v =>
        if v.toList.take 4 = "var.".toList then
          .ok (some (mkTok t (v.length : Int) 1 0))
        else
          match builtinVariables v with
          | some ro =>
            .ok (some (mkTok t (v.length : Int) 1 (if ro then 2 ||| 4 else 2)))
          | none => .ok (some (mkTok t (v.length : Int) 1 0))

/-- `getVariableTokenFromIdent`: a user-object reference, or nothing. -/
def getVariableTokenFromIdent (node : ASTNode) (userObjects : List String) :
    Option TokenInfo :=
  match node.value, node.token with
  | some v, some t =>
    if v = "" then none
    else if userObjects.contains v then some (mkTok t (v.length : Int) 3 0)
    else none
  | _, _ => none

/-- The `.length` of a `Value` that may be `undefined` (in which case the
JS code throws). -/
def valueLength (v : Option String) : Except Unit Int :=
  match v with
  | some s => .ok (s.length : Int)
  | none => .error ()

/-- `extractTokens`: the per-node switch plus the four post-switch
sections (function calls, regex operands, infix operators, user-object
identifiers) and the comment arrays. -/
def extractTokens (builtinFunctions : String → Bool)
    (builtinVariables : String → Option Bool)
    (userObjects : List String) (node : ASTNode) :
    Except Unit (List TokenInfo) := do
  let tokens : List TokenInfo ← do
    match node.token with
    | none => pure []
    | some tok =>
      if keywordCaseTypes.contains tok.type then
        pure [mkTok tok (tok.literal.length : Int) 9 0]
      else if tok.type = "CALL" then do
        let callToks ←
          match node.getObj "Subroutine" with
          | some sub =>
            match sub.token with
            | some st => do
              let len ← valueLength sub.value
              pure [mkTok st len 0 0]
            | none => pure []
          | none => pure []
        pure ([mkTok tok (tok.literal.length : Int) 9 0] ++ callToks)
      else if tok.type = "SUBROUTINE" then do
        let declToks ←
          match node.getObj "Name" with
          | some nameNode =>
            match nameNode.token with
            | some nt =>
              if node.nest then pure []
              else do
                let len ← valueLength nameNode.value
                let paramToks ←
                  match node.getArr "Parameters" with
                  | some params =>
                    params.foldlM (fun acc param => do
                      let acc ←
                        match param.getObj "Type" with
                        | some ty =>
                          match ty.token with
                          | some tt => do
                            let tlen ← valueLength ty.value
                            pure (acc ++ [mkTok tt tlen 4 0])
                          | none => pure acc
                        | none => pure acc
                      match param.getObj "Name" with
                      | some pn =>
                        match pn.token with
                        | some pt => do
                          let plen ← valueLength pn.value
                          pure (acc ++ [mkTok pt plen 2 1])
                        | none => pure acc
                      | none => pure acc) []
                  | none => pure []
                pure ([mkTok nt len 0 1] ++ paramToks)
            | none => pure []
          | none => pure []
        pure ([mkTok tok (tok.literal.length : Int) 9 0] ++ declToks)
      else if tok.type = "BACKEND" || tok.type = "DIRECTOR" ||
          tok.type = "RATECOUNTER" || tok.type = "PENALTYBOX" then do
        let nameToks ←
          match node.getObj "Name" with
          | some nameNode =>
            match nameNode.token with
            | some nt => do
              let len ← valueLength nameNode.value
              pure [mkTok nt len 3 1]
            | none => pure []
          | none => pure []
        pure ([mkTok tok (tok.literal.length : Int) 9 0] ++ nameToks)
      else if tok.type = "ACL" then do
        let nameToks ←
          match node.getObj "Name" with
          | some nameNode =>
            match nameNode.token with
            | some nt => do
              let len ← valueLength nameNode.value
              pure [mkTok nt len 4 1]
            | none => pure []
          | none => pure []
        pure ([mkTok tok (tok.literal.length : Int) 9 0] ++ nameToks)
      else if tok.type = "TABLE" then do
        let nameToks ←
          match node.getObj "Name" with
          | some nameNode =>
            match nameNode.token with
            | some nt => do
              let len ← valueLength nameNode.value
              pure [mkTok nt len 5 1]
            | none => pure []
          | none => pure []
        pure ([mkTok tok (tok.literal.length : Int) 9 0] ++ nameToks)
      else if tok.type = "DECLARE" then do
        let tyToks ←
          match node.getObj "ValueType" with
          | some ty =>
            match ty.token with
            | some tt => do
              let tlen ← valueLength ty.value
              pure [mkTok tt tlen 4 0]
            | none => pure []
          | none => pure []
        let nameToks ←
          match node.getObj "Name" with
          | some nameNode =>
            match nameNode.token with
            | some nt => do
              let len ← valueLength nameNode.value
              pure [mkTok nt len 1 1]
            | none => pure []
          | none => pure []
        pure ([mkTok tok (tok.literal.length : Int) 9 0] ++ tyToks ++ nameToks)
      else if tok.type = "STRING" then
        pure [mkTok tok ((tok.literal.length : Int) + tok.offset.getD 0) 10 0]
      else if tok.type = "INT" || tok.type = "FLOAT" || tok.type = "RTIME" then
        pure [mkTok tok (tok.literal.length : Int) 11 0]
      else if tok.type = "PLUS" || tok.type = "MINUS" then
        pure [mkTok tok (tok.literal.length : Int) 12 0]
      else if tok.type = "SET" || tok.type = "UNSET" then do
        let identToks ←
          match node.getObj "Ident" with
          | some ident =>
            match ident.token with
            | some _ => do
              let r ← getVariableToken builtinVariables ident ident.value
                userObjects
              pure (match r with | some ti => [ti] | none => [])
            | none => pure []
          | none => pure []
        pure ([mkTok tok (tok.literal.length : Int) 9 0] ++ identToks)
      else if tok.type = "IDENT" then
        let name := (node.value.getD tok.literal)
        if ¬ name = "" ∧ builtinFunctions name then pure []
        else if ¬ name = "" ∧ (name.toList.contains '.' ∨
            (builtinVariables name).isSome) then do
          let r ← getVariableToken builtinVariables node (some name)
            userObjects
          pure (match r with | some ti => [ti] | none => [])
        else pure []
      else pure []
  -- function calls: a Function child with a Token, plus an Arguments array
  let tokens ← do
    match node.getObj "Function", node.getArr "Arguments" with
    | some f, some args =>
      match f.token with
      | some ft => do
        let flen ← valueLength f.value
        let base := tokens ++
          [mkTok ft flen 0 (if builtinFunctions (f.value.getD "") then 2 else 0)]
        if (f.value = some "regsub" ∨ f.value = some "regsuball") ∧
            2 ≤ args.length then
          match args.get? 1 with
          | some regexArg =>
            match regexArg.token with
            | some rt =>
              if rt.type = "STRING" then do
                let rlen ← valueLength regexArg.value
                pure (base ++ [mkTok rt (rlen + 2) 7 0])
              else pure base
            | none => pure base
          | none => pure base
        else pure base
      | none => pure tokens
    | _, _ => pure tokens
  -- regex right operands of ~ / !~
  let tokens ← do
    if node.operator = some "~" ∨ node.operator = some "!~" then
      match node.getObj "Right" with
      | some right =>
        match right.token with
        | some rt =>
          if rt.type = "STRING" then do
            let rlen ← valueLength right.value
            pure (tokens ++ [mkTok rt (rlen + 2) 7 0])
          else pure tokens
        | none => pure tokens
      | none => pure tokens
    else pure tokens
  -- infix operators located between Left and Right
  let tokens :=
    match node.operator, node.getObj "Left", node.getObj "Right" with
    | some op, some left, some right =>
      if decide (¬ op = "") &&
         left.endPosition.any (fun ep => decide (¬ ep = 0)) &&
         right.token.any (fun rt => decide (¬ rt.position = 0)) &&
         (match left.endLine, right.token with
          | some el, some rt => decide (el = rt.line)
          | _, _ => false) then
        if ¬ node.explicitFlag ∨
            op ∈ ["~", "!~", "==", "!=", ">", "<", ">=", "<=", "&&", "||"] then
          match left.endLine, left.endPosition, right.token with
          | some el, some ep, some rt =>
            let operatorStart := rt.position - 1 - 1 - (op.length : Int)
            if operatorStart > ep - 1 then
              tokens ++ [⟨el - 1, operatorStart, (op.length : Int), 12, 0⟩]
            else tokens
          | _, _, _ => tokens
        else tokens
      else tokens
    | _, _, _ => tokens
  -- user-object identifiers not captured above
  let tokens :=
    match node.token with
    | some t =>
      if t.type = "IDENT" ∧ node.value.isSome then
        match getVariableTokenFromIdent node userObjects with
        | some ti => tokens ++ [ti]
        | none => tokens
      else tokens
    | none => tokens
  -- comments in the Leading / Trailing / Infix arrays
  let commentArrays :=
    ((node.getArr "Leading").toList ++ (node.getArr "Trailing").toList ++
     (node.getArr "Infix").toList)
  commentArrays.foldlM (fun toks commentArray =>
    commentArray.foldlM (fun toks comment =>
      match comment.token with
      | some ct =>
        if ct.type = "COMMENT" then do
          let clen ← valueLength comment.value
          pure (toks ++ [mkTok ct clen 8 0])
        else pure toks
      | none => pure toks) toks) tokens

/-- The sort comparator `(a, b) => a.line - b.line || a.character - b.character`
as a boolean total preorder. -/
def tokLe (a b : TokenInfo) : Bool :=
  decide (a.line < b.line) ||
  (a.line == b.line && decide (a.character ≤ b.character))

/-- Insert into a sorted list, before the first element not strictly
smaller — together with `sortTokens` this is the unique *stable* sort for
the comparator, which is what `Array.prototype.sort` (stable since
ES2019) produces. -/
def insertTok (t : TokenInfo) : List TokenInfo → List TokenInfo
  | [] => [t]
  | x :: xs => if tokLe t x then t :: x :: xs else x :: insertTok t xs

/-- `tokens.sort((a, b) => …)`: stable sort by `(line, character)`. -/
def sortTokens : List TokenInfo → List TokenInfo
  | [] => []
  | t :: ts => insertTok t (sortTokens ts)

/-- The dedup pass: drop a token that shares its `(line, character)` with
the last kept one, except that a `regexp` token (type 7) *replaces* the
kept one. -/
def dedupTokens (ts : List TokenInfo) : List TokenInfo :=
  ts.foldl (fun deduped token =>
    match deduped.getLast? with
    | some last =>
      if last.line = token.line ∧ last.character = token.character then
        if token.tokenType = 7 then deduped.dropLast ++ [token] else deduped
      else deduped ++ [token]
    | none => deduped ++ [token]) []

/-- `resolve` (semantic tokens provider): collect all node tokens over
the AST walk, sort by position, dedup same-position tokens.  The
resulting flat list is what the `SemanticTokensBuilder` delta-encodes,
in order.  (The `userSubroutines` set the source also builds is never
read by `extractTokens` and is omitted.) -/
def semanticTokensResolve (builtinFunctions : String → Bool)
    (builtinVariables : String → Option Bool) (fs : FileSystem)
    (cache : DocCache) (symbolCache : SymbolCache) (uri : String) :
    Except String (List TokenInfo) := do
  let got ← DocumentCache.get fs cache uri true
  match got.1 with
  | none => return []
  | some doc =>
    match doc.ast with
    | none => return []
    | some ast =>
      let symbols := getSymbolInformation symbolCache doc
      let userObjects := symbols.filterMap (fun s =>
        match s.detail with
        | some d =>
          if ["BACKEND", "ACL", "TABLE", "DIRECTOR", "RATECOUNTER",
              "PENALTYBOX"].contains d then s.name else none
        | none => none)
      let tokens ← liftJs ((walkAST ast).foldlM (fun acc node => do
        let nodeTokens ← extractTokens builtinFunctions builtinVariables
          userObjects node
        pure (acc ++ nodeTokens)) [])
      return dedupTokens (sortTokens tokens)

/-! ## Claim C8 — strict position ordering of the semantic-token list -/

/-- Non-strict position order on emitted tokens. -/
def posLe (a b : TokenInfo) : Prop :=
  a.line < b.line ∨ (a.line = b.line ∧ a.character ≤ b.character)

/-- Strict position order on emitted tokens: `a` comes before `b` and not
at the same `(line, character)`. -/
def posLt (a b : TokenInfo) : Prop :=
  a.line < b.line ∨ (a.line = b.line ∧ a.character < b.character)

theorem tokLe_iff {a b : TokenInfo} : tokLe a b = true ↔ posLe a b := by
  simp [tokLe, posLe]

theorem posLe_of_not_tokLe {a b : TokenInfo} (h : ¬ tokLe a b = true) :
    posLe b a := by
  simp [tokLe] at h
  rcases h with ⟨h1, h2⟩
  unfold posLe
  omega

theorem posLe_trans {a b c : TokenInfo} (h1 : posLe a b) (h2 : posLe b c) :
    posLe a c := by
  unfold posLe at *
  omega

theorem posLt_trans_le {a b c : TokenInfo} (h1 : posLt a b) (h2 : posLe b c) :
    posLt a c := by
  unfold posLt posLe at *
  omega

theorem posLt_of_le_ne {a b : TokenInfo} (h1 : posLe a b)
    (h2 : ¬ (a.line = b.line ∧ a.character = b.character)) : posLt a b := by
  unfold posLe at h1
  unfold posLt
  omega

theorem posLt_of_lt_eq {a b c : TokenInfo} (h1 : posLt a b)
    (h2 : b.line = c.line ∧ b.character = c.character) : posLt a c := by
  unfold posLt at *
  omega

theorem mem_insertTok {y t : TokenInfo} {l : List TokenInfo}
    (h : y ∈ insertTok t l) : y = t ∨ y ∈ l := by
  induction l with
  | nil => simpa [insertTok] using h
  | cons x xs ih =>
    rw [insertTok] at h
    split at h
    · simpa using h
    · rcases List.mem_cons.mp h with h | h
      · right; simp [h]
      · rcases ih h with h | h
        · left; exact h
        · right; simp [h]

theorem insertTok_pairwise {t : TokenInfo} {l : List TokenInfo}
    (hl : List.Pairwise posLe l) : List.Pairwise posLe (insertTok t l) := by
  induction l with
  | nil => simp [insertTok]
  | cons x xs ih =>
    rw [insertTok]
    rcases List.pairwise_cons.mp hl with ⟨hx, hxs⟩
    split
    · rename_i hle
      refine List.pairwise_cons.mpr ⟨?_, hl⟩
      intro y hy
      rcases List.mem_cons.mp hy with h | h
      · subst h; exact tokLe_iff.mp hle
      · exact posLe_trans (tokLe_iff.mp hle) (hx y h)
    · rename_i hnle
      refine List.pairwise_cons.mpr ⟨?_, ih hxs⟩
      intro y hy
      rcases mem_insertTok hy with h | h
      · subst h; exact posLe_of_not_tokLe hnle
      · exact hx y h

theorem sortTokens_pairwise (l : List TokenInfo) :
    List.Pairwise posLe (sortTokens l) := by
  induction l with
  | nil => simp [sortTokens]
  | cons t ts ih => exact insertTok_pairwise ih

theorem dedup_fold_pairwise :
    ∀ (ts acc : List TokenInfo), List.Pairwise posLe ts →
    List.Pairwise posLt acc → (∀ a ∈ acc, ∀ t ∈ ts, posLe a t) →
    List.Pairwise posLt (ts.foldl (fun deduped token =>
      match deduped.getLast? with
      | some last =>
        if last.line = token.line ∧ last.character = token.character then
          if token.tokenType = 7 then deduped.dropLast ++ [token] else deduped
        else deduped ++ [token]
      | none => deduped ++ [token]) acc)
  | [], acc, _, hacc, _ => by simpa using hacc
  | tk :: rest, acc, hts, hacc, hcross => by
    rw [List.foldl_cons]
    rcases List.pairwise_cons.mp hts with ⟨hhead, hrest⟩
    cases hlast : acc.getLast? with
    | none =>
      have hnil : acc = [] := by
        cases acc with
        | nil => rfl
        | cons a as => simp [List.getLast?_concat, List.getLast?] at hlast
      subst hnil
      refine dedup_fold_pairwise rest [tk] hrest (by simp) ?_
      intro a ha t ht
      simp at ha
      subst ha
      exact hhead t ht
    | some last =>
      have hne : acc ≠ [] := by
        intro hc; subst hc; simp at hlast
      have hsplit : acc.dropLast ++ [last] = acc := by
        have h1 := List.dropLast_append_getLast hne
        have h2 : acc.getLast hne = last := by
          have h3 := List.getLast?_eq_getLast acc hne
          rw [h3] at hlast
          exact Option.some.inj hlast
        rw [h2] at h1
        exact h1
      have haccSplit : List.Pairwise posLt (acc.dropLast ++ [last]) := by
        rw [hsplit]; exact hacc
      dsimp only
      by_cases hkey : last.line = tk.line ∧ last.character = tk.character
      · rw [if_pos hkey]
        by_cases hty : tk.tokenType = 7
        · rw [if_pos hty]
          refine dedup_fold_pairwise rest (acc.dropLast ++ [tk]) hrest ?_ ?_
          · rw [List.pairwise_append]
            refine ⟨(List.pairwise_append.mp haccSplit).1, by simp, ?_⟩
            intro a ha b hb
            simp at hb
            rw [hb]
            have halt := (List.pairwise_append.mp haccSplit).2.2 a ha last
              (by simp)
            exact posLt_of_lt_eq halt hkey
          · intro a ha t ht
            rcases List.mem_append.mp ha with h | h
            · exact hcross a (by rw [← hsplit]; exact List.mem_append_left _ h)
                t (List.mem_cons_of_mem _ ht)
            · simp at h
              subst h
              exact hhead t ht
        · rw [if_neg hty]
          refine dedup_fold_pairwise rest acc hrest hacc ?_
          intro a ha t ht
          exact hcross a ha t (List.mem_cons_of_mem _ ht)
      · rw [if_neg hkey]
        refine dedup_fold_pairwise rest (acc ++ [tk]) hrest ?_ ?_
        · rw [List.pairwise_append]
          refine ⟨hacc, by simp, ?_⟩
          intro a ha b hb
          simp at hb
          rw [hb]
          have hle : posLe a tk := hcross a ha tk (by simp)
          have ha' : a ∈ acc.dropLast ++ [last] := by rw [hsplit]; exact ha
          rcases List.mem_append.mp ha' with hd | hl
          · have halt : posLt a last :=
              (List.pairwise_append.mp haccSplit).2.2 a hd last (by simp)
            have hlast_le : posLe last tk := hcross last
              (by rw [← hsplit]; simp) tk (by simp)
            exact posLt_trans_le halt hlast_le
          · rw [List.mem_singleton] at hl
            rw [hl] at hle ⊢
            exact posLt_of_le_ne hle hkey
        · intro a ha t ht
          rcases List.mem_append.mp ha with h | h
          · exact hcross a h t (List.mem_cons_of_mem _ ht)
          · simp at h
            subst h
            exact hhead t ht

theorem dedupTokens_pairwise {ts : List TokenInfo}
    (h : List.Pairwise posLe ts) : List.Pairwise posLt (dedupTokens ts) :=
  dedup_fold_pairwise ts [] h (by simp) (by simp)

/-- C8: the flat semantic-token list delivered by `semanticTokens()` is
strictly ordered by `(line, character)` ascending — in particular no two
entries share the exact same `(line, character)` — for every document,
AST and metadata set: the sort makes the list non-decreasing and the
dedup pass keeps at most one token per position. -/
theorem c8_semantic_tokens_strictly_ordered
    (builtinFunctions : String → Bool)
    (builtinVariables : String → Option Bool) (fs : FileSystem)
    (cache : DocCache) (symbolCache : SymbolCache) (uri : String)
    (result : List TokenInfo)
    (h : semanticTokensResolve builtinFunctions builtinVariables fs cache
      symbolCache uri = .ok result) :
    List.Pairwise posLt result := by
  rw [semanticTokensResolve] at h
  simp only [Bind.bind, Except.bind] at h
  repeat' split at h
  all_goals first
    | (simp only [pure, Except.pure, Except.ok.injEq] at h; subst h; simp)
    | (simp only [pure, Except.pure, Except.ok.injEq] at h; subst h;
       exact dedupTokens_pairwise (sortTokens_pairwise _))
    | cases h

/-- C8 fixture: a single `acl internal` declaration. -/
def c8Ast : ASTNode :=
  rootNode [.mk (some ⟨"ACL", 1, 1, "acl", none⟩) none none false false
    none none (.obj "Name" (identNode 1 5 "internal") .nil)]

def c8Doc : VclDocument :=
  ⟨"file:///c8.vcl", "acl internal \x7b\n\x7d\n", some c8Ast⟩

/-- C8 witness: the concrete token list for the fixture is strictly
ordered. -/
theorem c8_semantic_tokens_witness :
    List.Pairwise posLt
      [(⟨0, 0, 3, 9, 0⟩ : TokenInfo), ⟨0, 4, 8, 4, 1⟩] :=
  c8_semantic_tokens_strictly_ordered (fun _ => false) (fun _ => none)
    (fun _ => .error "ENOENT") [("file:///c8.vcl", c8Doc)] []
    "file:///c8.vcl" [⟨0, 0, 3, 9, 0⟩, ⟨0, 4, 8, 4, 1⟩] rfl

/-! ## Claim C5 — pairwise non-overlap of rename edit sets

The disjointness of the pattern-based usage edits is proved outright from
the `exec` loop's semantics (consecutive matches occupy disjoint windows
of the text).  What cannot be proved without knowing the lexer/oracle is
well-formedness of the *AST-derived* spans (header and local-variable
occurrences): that distinct occurrences sit on disjoint spans.  Those
facts — true of every lexer-produced AST, where each occurrence is a
distinct token — enter as hypotheses. -/

/-- Two ranges do not intersect (each edit span is half-open). -/
def rangesDisjoint (r1 r2 : Range) : Prop :=
  Pos.le r1.stop r2.start ∨ Pos.le r2.stop r1.start

instance (r1 r2 : Range) : Decidable (rangesDisjoint r1 r2) := by
  unfold rangesDisjoint; exact inferInstance

/-- Same single-line span. -/
def locSpanEq (l1 l2 : SymbolLocation) : Prop :=
  l1.line = l2.line ∧ l1.position = l2.position ∧ l1.length = l2.length

instance (l1 l2 : SymbolLocation) : Decidable (locSpanEq l1 l2) := by
  unfold locSpanEq; exact inferInstance

/-- The two single-line spans do not intersect. -/
def locDisjoint (l1 l2 : SymbolLocation) : Prop :=
  ¬ (l1.line = l2.line ∧ l1.position < l2.position + l2.length ∧
     l2.position < l1.position + l1.length)

instance (l1 l2 : SymbolLocation) : Decidable (locDisjoint l1 l2) := by
  unfold locDisjoint; exact inferInstance

theorem locDisjoint_toRange {l1 l2 : SymbolLocation}
    (h : locDisjoint l1 l2) : rangesDisjoint l1.toRange l2.toRange := by
  unfold locDisjoint at h
  unfold rangesDisjoint SymbolLocation.toRange Pos.le
  dsimp only
  omega

/-- `matchLit` consumes exactly the literal, which fits between `i` and
the end of the text. -/
theorem matchLit_bounds {s : List Char} {i : Nat} {lit : List Char}
    {m : Nat} (h : matchLit s i lit = some m) :
    m = i + lit.length ∧ lit.length ≤ s.length - i := by
  rw [matchLit] at h
  split at h
  · rename_i heq
    cases h
    refine ⟨rfl, ?_⟩
    have hlen : ((s.drop i).take lit.length).length = lit.length := by
      rw [heq]
    rw [List.length_take, List.length_drop] at hlen
    omega
  · cases h

theorem skipWs_ge {s : List Char} {i : Nat} : i ≤ skipWs s i := by
  rw [skipWs]; omega

theorem skipWs_le {s : List Char} {i : Nat} (h : i ≤ s.length) :
    skipWs s i ≤ s.length := by
  rw [skipWs]
  have hsub : List.Sublist ((s.drop i).takeWhile isSpaceJS) (s.drop i) :=
    List.takeWhile_sublist isSpaceJS
  have := hsub.length_le
  rw [List.length_drop] at this
  omega

/-- ACL matches start strictly before they end and end inside the text. -/
theorem matchAclAt_bounds {name s : List Char} {i m : Nat}
    (hin : i ≤ s.length) (h : matchAclAt name s i = some m) :
    i < m ∧ m ≤ s.length := by
  rw [matchAclAt] at h
  simp only [Bind.bind, Option.bind] at h
  have core : ∀ j, i < j → j ≤ s.length →
      (Option.bind (matchLit s (skipWs s j) name)
        (fun m1 => if wordBoundaryAt s m1 then some m1 else none)) = some m →
      i < m ∧ m ≤ s.length := by
    intro j hij hjle hb
    rcases Option.bind_eq_some.mp hb with ⟨m1, hm1, h3⟩
    have hws : j ≤ skipWs s j := skipWs_ge
    have hwsle : skipWs s j ≤ s.length := skipWs_le hjle
    have hmb := matchLit_bounds hm1
    split at h3
    · cases h3; exact ⟨by omega, by omega⟩
    · cases h3
  split at h
  · rename_i hcc
    simp only [Bool.and_eq_true, decide_eq_true_eq] at hcc
    have h1 : i + 1 < s.length := by
      obtain ⟨hh, -⟩ := List.get?_eq_some.mp hcc.2
      exact hh
    exact core (i + 2) (by omega) (by omega) h
  · split at h
    · rename_i hc
      have h1 : i < s.length := by
        obtain ⟨hh, -⟩ := List.get?_eq_some.mp hc
        exact hh
      exact core (i + 1) (by omega) (by omega) h
    · cases h

/-- The table-pattern tail stays within the text and moves forward. -/
theorem matchTableTail_bounds {name s : List Char} {j m : Nat}
    (hin : j ≤ s.length) (h : matchTableTail name s j = some m) :
    j < m ∧ m ≤ s.length := by
  rw [matchTableTail] at h
  simp only [Bind.bind, Option.bind] at h
  rcases Option.bind_eq_some.mp h with ⟨k, hk, h2⟩
  rcases Option.bind_eq_some.mp h2 with ⟨m1, hm1, h3⟩
  have hws : j ≤ skipWs s j := skipWs_ge
  have hwsle : skipWs s j ≤ s.length := skipWs_le hin
  have hkb := matchLit_bounds hk
  simp only [List.length_cons, List.length_nil] at hkb
  have hkle : k ≤ s.length := by omega
  have hws2 : k ≤ skipWs s k := skipWs_ge
  have hws2le : skipWs s k ≤ s.length := skipWs_le hkle
  have hmb := matchLit_bounds hm1
  split at h3
  · cases h3; exact ⟨by omega, by omega⟩
  · cases h3

/-- Table matches start strictly before they end and end inside the text. -/
theorem matchTableAt_bounds {name s : List Char} {i m : Nat}
    (hin : i ≤ s.length) (h : matchTableAt name s i = some m) :
    i < m ∧ m ≤ s.length := by
  rw [matchTableAt] at h
  have h6 : ("table.".toList).length = 6 := by decide
  split at h
  · cases h
  · rename_i j hj
    have hjb := matchLit_bounds hj
    have hjle : j ≤ s.length := by omega
    split at h
    · rename_i m1 hm1
      cases h
      rcases Option.bind_eq_some.mp hm1 with ⟨j2, hj2, htail⟩
      have hj2b := matchLit_bounds hj2
      have hj2le : j2 ≤ s.length := by omega
      have := matchTableTail_bounds hj2le htail
      omega
    · rcases Option.bind_eq_some.mp h with ⟨j2, hj2, htail⟩
      have hj2b := matchLit_bounds hj2
      have hj2le : j2 ≤ s.length := by omega
      have := matchTableTail_bounds hj2le htail
      omega

/-- The backend-pattern tail stays within the text and moves forward. -/
theorem matchBackendTail_bounds {name s : List Char} {j m : Nat}
    (hin : j ≤ s.length) (h : matchBackendTail name s j = some m) :
    j < m ∧ m ≤ s.length := by
  rw [matchBackendTail] at h
  simp only [Bind.bind, Option.bind] at h
  rcases Option.bind_eq_some.mp h with ⟨j2, hj2, h2⟩
  rcases Option.bind_eq_some.mp h2 with ⟨k, hk, h3⟩
  rcases Option.bind_eq_some.mp h3 with ⟨m1, hm1, h4⟩
  have hj2b := matchLit_bounds hj2
  have h8 : (".backend".toList).length = 8 := by decide
  have hj2le : j2 ≤ s.length := by omega
  have hws : j2 ≤ skipWs s j2 := skipWs_ge
  have hwsle : skipWs s j2 ≤ s.length := skipWs_le hj2le
  have hkb := matchLit_bounds hk
  simp only [List.length_cons, List.length_nil] at hkb
  have hkle : k ≤ s.length := by omega
  have hws2 : k ≤ skipWs s k := skipWs_ge
  have hws2le : skipWs s k ≤ s.length := skipWs_le hkle
  have hmb := matchLit_bounds hm1
  split at h4
  · cases h4; exact ⟨by omega, by omega⟩
  · cases h4

/-- Backend matches start strictly before they end and end inside the text. -/
theorem matchBackendAt_bounds {name s : List Char} {i m : Nat}
    (hin : i ≤ s.length) (h : matchBackendAt name s i = some m) :
    i < m ∧ m ≤ s.length := by
  rw [matchBackendAt] at h
  split at h
  · rename_i m1 hm1
    cases h
    rcases Option.bind_eq_some.mp hm1 with ⟨j, hj, htail⟩
    have hjb := matchLit_bounds hj
    have h3 : ("req".toList).length = 3 := by decide
    have hjle : j ≤ s.length := by omega
    have := matchBackendTail_bounds hjle htail
    omega
  · rcases Option.bind_eq_some.mp h with ⟨j, hj, htail⟩
    have hjb := matchLit_bounds hj
    have h5 : ("bereq".toList).length = 5 := by decide
    have hjle : j ≤ s.length := by omega
    have := matchBackendTail_bounds hjle htail
    omega

/-- Call matches start strictly before they end and end inside the text. -/
theorem matchCallAt_bounds {name s : List Char} {i m : Nat}
    (hin : i ≤ s.length) (h : matchCallAt name s i = some m) :
    i < m ∧ m ≤ s.length := by
  rw [matchCallAt] at h
  simp only [Bind.bind, Option.bind] at h
  rcases Option.bind_eq_some.mp h with ⟨j, hj, h2⟩
  have hjb := matchLit_bounds hj
  have h4 : ("call".toList).length = 4 := by decide
  have hjle : j ≤ s.length := by omega
  split at h2
  · cases h2
  · rcases Option.bind_eq_some.mp h2 with ⟨m1, hm1, h3⟩
    have hmb := matchLit_bounds hm1
    have hws : j ≤ skipWs s j := skipWs_ge
    have hwsle : skipWs s j ≤ s.length := skipWs_le hjle
    have hm1le : m1 ≤ s.length := by omega
    have hws2 : m1 ≤ skipWs s m1 := skipWs_ge
    have hws2le : skipWs s m1 ≤ s.length := skipWs_le hm1le
    have hfin := matchLit_bounds h3
    simp only [List.length_cons, List.length_nil] at hfin
    omega

/-- The `exec` loop's windows: each window sits between the scan start
and the end of the text with positive width, and consecutive windows are
disjoint, provided the matcher moves forward within the text. -/
theorem execScan_sound {matchAt : Nat → Option Nat} {s : List Char}
    (hb : ∀ i m, i ≤ s.length → matchAt i = some m → i < m ∧ m ≤ s.length) :
    ∀ (fuel i0 : Nat),
      (∀ w ∈ execScan matchAt s fuel i0,
        i0 ≤ w.1 ∧ w.1 < w.2 ∧ w.2 ≤ s.length) ∧
      (execScan matchAt s fuel i0).Pairwise (fun w1 w2 => w1.2 ≤ w2.1) := by
  intro fuel
  induction fuel with
  | zero =>
    intro i0
    constructor
    · intro w hw; simp [execScan] at hw
    · simp [execScan]
  | succ fuel ih =>
    intro i0
    rw [execScan]
    split
    · constructor
      · intro w hw; simp at hw
      · simp
    · rename_i hgt
      have hi0 : i0 ≤ s.length := by omega
      split
      · rename_i m hm
        have hbm := hb i0 m hi0 hm
        split
        · obtain ⟨ihA, ihB⟩ := ih m
          constructor
          · intro w hw
            rcases List.mem_cons.mp hw with hw | hw
            · rw [hw]; exact ⟨le_refl _, hbm.1, hbm.2⟩
            · have := ihA w hw
              exact ⟨by omega, this.2⟩
          · refine List.pairwise_cons.mpr ⟨?_, ihB⟩
            intro w hw
            exact (ihA w hw).1
        · exact absurd hbm.1 (by omega)
      · rename_i hm
        obtain ⟨ihA, ihB⟩ := ih (i0 + 1)
        constructor
        · intro w hw
          have := ihA w hw
          exact ⟨by omega, this.2⟩
        · exact ihB

/-- `matchesOf` windows: positive width, inside the text, pairwise
disjoint. -/
theorem matchesOf_sound {matchAt : Nat → Option Nat} {s : List Char}
    (hb : ∀ i m, i ≤ s.length → matchAt i = some m → i < m ∧ m ≤ s.length) :
    (∀ w ∈ matchesOf matchAt s, w.1 < w.2 ∧ w.2 ≤ s.length) ∧
    (matchesOf matchAt s).Pairwise (fun w1 w2 => w1.2 ≤ w2.1) := by
  obtain ⟨hA, hB⟩ := execScan_sound hb (s.length + 1) 0
  exact ⟨fun w hw => (hA w hw).2, hB⟩

/-- A successful `lastIndexOf` leaves room for the needle before the end
of the haystack. -/
theorem lastIndexOfList_bounds {sub l : List Char}
    (h : lastIndexOfList sub l ≠ -1) :
    0 ≤ lastIndexOfList sub l ∧
    (lastIndexOfList sub l).toNat + sub.length ≤ l.length := by
  rw [lastIndexOfList] at h ⊢
  split
  · rename_i j hg
    have hmem0 : j ∈ (((List.range (l.length + 1)).filter
        (fun i => (l.drop i).take sub.length = sub))).getLast? := by
      rw [Option.mem_def]; exact hg
    obtain ⟨hne, heq⟩ := List.mem_getLast?_eq_getLast hmem0
    have hmem := heq ▸ List.getLast_mem hne
    obtain ⟨hrange, hpred⟩ := List.mem_filter.mp hmem
    have hj : j < l.length + 1 := List.mem_range.mp hrange
    have hpred' := of_decide_eq_true hpred
    have hlen : ((l.drop j).take sub.length).length = sub.length := by
      rw [hpred']
    rw [List.length_take, List.length_drop] at hlen
    refine ⟨by positivity, ?_⟩
    rw [Int.toNat_natCast]
    omega
  · rename_i hg
    split at h
    · rename_i j hg2
      rw [hg2] at hg; cases hg
    · exact absurd rfl h

/-- Each usage-name offset sits inside its window, leaving room for the
name, and the offsets are pairwise separated by at least the name. -/
theorem usageNameOffsets_sound {name text : List Char}
    {matchAt : List Char → Nat → Option Nat}
    (hb : ∀ i m, i ≤ text.length → matchAt text i = some m →
      i < m ∧ m ≤ text.length) :
    (∀ o ∈ usageNameOffsets matchAt name text,
      o + name.length ≤ text.length) ∧
    (usageNameOffsets matchAt name text).Pairwise
      (fun o1 o2 => o1 + name.length ≤ o2) := by
  obtain ⟨hA, hB⟩ := matchesOf_sound hb
  have hoff : ∀ w ∈ matchesOf (matchAt text) text, ∀ o,
      (let matchText := (text.drop w.1).take (w.2 - w.1)
       let nameIndex := lastIndexOfList name matchText
       if nameIndex = -1 then none
       else some (w.1 + nameIndex.toNat)) = some o →
      w.1 ≤ o ∧ o + name.length ≤ w.2 := by
    intro w hw o hsome
    obtain ⟨hw1, hw2⟩ := hA w hw
    dsimp only at hsome
    split at hsome
    · cases hsome
    · rename_i hne
      cases hsome
      obtain ⟨hnn, hbound⟩ := lastIndexOfList_bounds hne
      rw [List.length_take, List.length_drop] at hbound
      constructor
      · omega
      · omega
  constructor
  · intro o ho
    obtain ⟨w, hw, hfw⟩ := List.mem_filterMap.mp ho
    have := hoff w hw o hfw
    have := hA w hw
    omega
  · rw [usageNameOffsets, List.pairwise_filterMap]
    refine List.Pairwise.imp_of_mem ?_ hB
    intro w1 w2 hw1 hw2 hle o1 ho1 o2 ho2
    have h1 := hoff w1 hw1 o1 ho1
    have h2 := hoff w2 hw2 o2 ho2
    omega

/-- `positionAt` never goes back before the starting line index. -/
theorem positionAtGo_line_ge :
    ∀ (ls : List (List Char)) (off : Nat) (idx : Int),
      idx ≤ (positionAtGo ls off idx).line := by
  intro ls
  induction ls with
  | nil => intro off idx; rw [positionAtGo]
  | cons l rest ih =>
    cases rest with
    | nil => intro off idx; rw [positionAtGo]
    | cons l2 rest2 =>
      intro off idx
      rw [show positionAtGo (l :: l2 :: rest2) off idx =
        if off < l.length then (⟨idx, (off : Int)⟩ : Pos)
        else positionAtGo (l2 :: rest2) (off - l.length) (idx + 1) from rfl]
      split
      · exact le_refl _
      · have := ih (off - l.length) (idx + 1)
        omega

/-- `positionAt` is monotone in the offset. -/
theorem positionAtGo_mono :
    ∀ (ls : List (List Char)) (a b : Nat) (idx : Int), a ≤ b →
      Pos.le (positionAtGo ls a idx) (positionAtGo ls b idx) := by
  intro ls
  induction ls with
  | nil =>
    intro a b idx hab
    rw [positionAtGo, positionAtGo]
    refine Or.inr ⟨rfl, ?_⟩
    show (a : Int) ≤ (b : Int)
    exact_mod_cast hab
  | cons l rest ih =>
    cases rest with
    | nil =>
      intro a b idx hab
      rw [positionAtGo, positionAtGo]
      refine Or.inr ⟨rfl, ?_⟩
      show ((a : Int) ⊓ (l.length : Int)) ≤ ((b : Int) ⊓ (l.length : Int))
      omega
    | cons l2 rest2 =>
      intro a b idx hab
      rw [show positionAtGo (l :: l2 :: rest2) a idx =
        if a < l.length then (⟨idx, (a : Int)⟩ : Pos)
        else positionAtGo (l2 :: rest2) (a - l.length) (idx + 1) from rfl]
      rw [show positionAtGo (l :: l2 :: rest2) b idx =
        if b < l.length then (⟨idx, (b : Int)⟩ : Pos)
        else positionAtGo (l2 :: rest2) (b - l.length) (idx + 1) from rfl]
      split
      · rename_i ha
        split
        · refine Or.inr ⟨rfl, ?_⟩
          show (a : Int) ≤ (b : Int)
          exact_mod_cast hab
        · refine Or.inl ?_
          have := positionAtGo_line_ge (l2 :: rest2) (b - l.length) (idx + 1)
          show idx < (positionAtGo (l2 :: rest2) (b - l.length) (idx + 1)).line
          omega
      · rename_i ha
        split
        · rename_i hbb
          exact absurd hab (by omega)
        · exact ih (a - l.length) (b - l.length) (idx + 1) (by omega)

theorem positionAt_mono {text : List Char} {a b : Nat} (hab : a ≤ b) :
    Pos.le (positionAt text a) (positionAt text b) := by
  rw [positionAt, positionAt]
  exact positionAtGo_mono (docLines text) _ _ 0 (by omega)

/-- Every matcher `patternFor` can return moves strictly forward within
the text. -/
theorem patternFor_bounds {symbolType : String} {name : List Char}
    {matchAt : List Char → Nat → Option Nat}
    (h : patternFor symbolType name = some matchAt) :
    ∀ (s : List Char) (i m : Nat), i ≤ s.length → matchAt s i = some m →
      i < m ∧ m ≤ s.length := by
  rw [patternFor] at h
  split at h
  · cases h; exact fun s i m hi hm => matchAclAt_bounds hi hm
  · split at h
    · cases h; exact fun s i m hi hm => matchTableAt_bounds hi hm
    · split at h
      · cases h; exact fun s i m hi hm => matchBackendAt_bounds hi hm
      · split at h
        · cases h; exact fun s i m hi hm => matchCallAt_bounds hi hm
        · cases h

/-- The pattern-based usage edits of a rename are pairwise disjoint, for
every document, name, symbol type and replacement. -/
theorem getUsageRenameEdits_pairwise (doc : VclDocument) (name : String)
    (symbolType : Option String) (newName : String) :
    (getUsageRenameEdits doc name symbolType newName).Pairwise
      (fun e1 e2 => rangesDisjoint e1.range e2.range) := by
  rw [getUsageRenameEdits]
  split
  · exact List.Pairwise.nil
  · rename_i matchAt hpat
    have hb := patternFor_bounds hpat
    obtain ⟨hA, hB⟩ := @usageNameOffsets_sound name.toList doc.getText
      matchAt (fun i m hi hm => hb doc.getText i m hi hm)
    rw [List.pairwise_map]
    refine hB.imp ?_
    intro o1 o2 hle
    have hlen : name.toList.length = name.length := rfl
    exact Or.inl (positionAt_mono (by omega))

/-- The dedup fold keeps a sublist of its input with pairwise-distinct
`(line, position)` keys. -/
theorem dedupStep_fold_sound :
    ∀ (locs acc : List SymbolLocation),
      acc.Pairwise
        (fun l1 l2 => ¬(l1.line = l2.line ∧ l1.position = l2.position)) →
      (∀ l ∈ locs.foldl dedupStep acc, l ∈ acc ∨ l ∈ locs) ∧
      (locs.foldl dedupStep acc).Pairwise
        (fun l1 l2 => ¬(l1.line = l2.line ∧ l1.position = l2.position)) := by
  intro locs
  induction locs with
  | nil =>
    intro acc hacc
    exact ⟨fun l hl => Or.inl hl, hacc⟩
  | cons loc rest ih =>
    intro acc hacc
    rw [List.foldl_cons, dedupStep]
    split
    · obtain ⟨ihA, ihB⟩ := ih acc hacc
      refine ⟨?_, ihB⟩
      intro l hl
      rcases ihA l hl with h | h
      · exact Or.inl h
      · exact Or.inr (List.mem_cons_of_mem _ h)
    · rename_i hany
      have hnone : ∀ l ∈ acc,
          ¬(l.line = loc.line ∧ l.position = loc.position) := by
        intro l hl hc
        exact hany (List.any_eq_true.mpr
          ⟨l, hl, by simp [hc.1, hc.2]⟩)
      have hacc2 : (acc ++ [loc]).Pairwise
          (fun l1 l2 => ¬(l1.line = l2.line ∧ l1.position = l2.position)) := by
        rw [List.pairwise_append]
        refine ⟨hacc, List.pairwise_singleton _ _, ?_⟩
        intro a ha b hb
        rw [List.mem_singleton] at hb
        rw [hb]
        exact hnone a ha
      obtain ⟨ihA, ihB⟩ := ih (acc ++ [loc]) hacc2
      refine ⟨?_, ihB⟩
      intro l hl
      rcases ihA l hl with h | h
      · rcases List.mem_append.mp h with h | h
        · exact Or.inl h
        · rw [List.mem_singleton] at h
          rw [h]
          exact Or.inr (List.mem_cons_self _ _)
      · exact Or.inr (List.mem_cons_of_mem _ h)

theorem dedupLocs_sound (locs : List SymbolLocation) :
    (∀ l ∈ dedupLocs locs, l ∈ locs) ∧
    (dedupLocs locs).Pairwise
      (fun l1 l2 => ¬(l1.line = l2.line ∧ l1.position = l2.position)) := by
  obtain ⟨hA, hB⟩ := dedupStep_fold_sound locs [] List.Pairwise.nil
  refine ⟨?_, hB⟩
  intro l hl
  rcases hA l hl with h | h
  · cases h
  · exact h

/-- Header rename edits are pairwise disjoint whenever the collected
occurrences of the header are well-spanned (any two either share the
whole span or are disjoint — true of lexer-produced tokens). -/
theorem getHttpHeaderRenameEdits_pairwise {doc : VclDocument}
    {headerName newName : String} {edits : List TextEdit}
    (h : getHttpHeaderRenameEdits doc headerName newName = .ok edits)
    (hwf : ∀ ast, doc.ast = some ast →
      ∀ locs, (walkAST ast).foldlM (hdrLocsAtNode headerName) [] = .ok locs →
        ∀ l1 ∈ locs, ∀ l2 ∈ locs, locSpanEq l1 l2 ∨ locDisjoint l1 l2) :
    edits.Pairwise (fun e1 e2 => rangesDisjoint e1.range e2.range) := by
  rw [getHttpHeaderRenameEdits] at h
  split at h
  · simp only [pure, Except.pure, Except.ok.injEq] at h
    rw [← h]
    exact List.Pairwise.nil
  · rename_i ast hast
    simp only [Bind.bind, Except.bind] at h
    split at h
    · cases h
    · rename_i locs hfold
      simp only [pure, Except.pure, Except.ok.injEq] at h
      rw [← h]
      obtain ⟨hsub, hkeys⟩ := dedupLocs_sound locs
      have hwf2 := hwf ast hast locs hfold
      rw [List.pairwise_map]
      refine List.Pairwise.imp_of_mem ?_ hkeys
      intro l1 l2 h1 h2 hne
      rcases hwf2 l1 (hsub l1 h1) l2 (hsub l2 h2) with hsp | hd
      · exact absurd ⟨hsp.1, hsp.2.1⟩ hne
      · exact locDisjoint_toRange hd

/-- Local-variable rename edits are pairwise disjoint whenever the
in-scope usages are pairwise disjoint and the declaration either shares a
usage's key or is disjoint from it (true of lexer-produced tokens). -/
theorem getLocalVariableRenameEdits_pairwise {doc : VclDocument}
    {name : String} {position : Pos} {newName : String}
    {edits : List TextEdit}
    (h : getLocalVariableRenameEdits doc name position newName = .ok edits)
    (hwf : ∀ ast containingSub, doc.ast = some ast →
      findContainingSubroutine ast position = some containingSub →
      (findVariableUsagesInBlock containingSub name).Pairwise locDisjoint ∧
      (∀ d, findDeclarationLocation containingSub name = .ok (some d) →
        ∀ u ∈ findVariableUsagesInBlock containingSub name,
          (u.line = d.line ∧ u.position = d.position) ∨ locDisjoint d u)) :
    edits.Pairwise (fun e1 e2 => rangesDisjoint e1.range e2.range) := by
  rw [getLocalVariableRenameEdits] at h
  split at h
  · have h' : ([] : List TextEdit) = edits := Except.ok.inj h
    rw [← h']
    exact List.Pairwise.nil
  · rename_i ast hast
    split at h
    · have h' : ([] : List TextEdit) = edits := Except.ok.inj h
      rw [← h']
      exact List.Pairwise.nil
    · rename_i csub hsub
      obtain ⟨husages, hdecl⟩ := hwf ast csub hast hsub
      split at h
      · have h' : ([] : List TextEdit) = edits := Except.ok.inj h
        rw [← h']
        exact List.Pairwise.nil
      · simp only [Bind.bind, Except.bind] at h
        split at h
        · cases h
        · rename_i declOpt hdloc
          simp only [pure, Except.pure, Except.ok.injEq] at h
          rw [← h]
          rw [List.pairwise_append]
          refine ⟨?_, ?_, ?_⟩
          · cases declOpt with
            | none => exact List.Pairwise.nil
            | some d => exact List.pairwise_singleton _ _
          · rw [List.pairwise_filterMap]
            refine List.Pairwise.imp_of_mem ?_ husages
            intro u1 u2 h1 h2 hd e1 he1 e2 he2
            cases declOpt with
            | none =>
              cases he1
              cases he2
              exact locDisjoint_toRange hd
            | some d =>
              dsimp only at he1 he2
              by_cases hk1 : u1.line = d.line ∧ u1.position = d.position
              · rw [if_pos hk1] at he1
                cases he1
              · rw [if_neg hk1] at he1
                by_cases hk2 : u2.line = d.line ∧ u2.position = d.position
                · rw [if_pos hk2] at he2
                  cases he2
                · rw [if_neg hk2] at he2
                  cases he1
                  cases he2
                  exact locDisjoint_toRange hd
          · intro a ha b hb
            cases declOpt with
            | none => cases ha
            | some d =>
              rw [List.mem_singleton] at ha
              obtain ⟨u, hu, hfb⟩ := List.mem_filterMap.mp hb
              dsimp only at hfb
              by_cases hk : u.line = d.line ∧ u.position = d.position
              · rw [if_pos hk] at hfb
                cases hfb
              · rw [if_neg hk] at hfb
                cases hfb
                rw [ha]
                rcases hdecl d hdloc u hu with hk2 | hd2
                · exact absurd hk2 hk
                · exact locDisjoint_toRange hd2

theorem liftJs_ok {α : Type} {x : Except Unit α} {a : α}
    (h : liftJs x = .ok a) : x = .ok a := by
  cases x with
  | ok b => cases h; rfl
  | error e => cases h

/-- C5: every successful rename — across the HTTP-header, local-variable
and global-symbol paths — returns a pairwise non-overlapping edit set.
The pattern-based usage edits are disjoint unconditionally; the
AST-derived spans (header occurrences, local occurrences, the global
declaration's selection range) are assumed well-spanned, as lexer-produced
tokens are. -/
theorem c5_rename_edits_nonoverlapping
    (fs : FileSystem) (cache : DocCache) (symCache : SymbolCache)
    (params : RenameParams) (doc : VclDocument) (cache2 : DocCache)
    (edits : List TextEdit)
    (hget : DocumentCache.get fs cache params.uri true =
      .ok (some doc, cache2))
    (hheader : ∀ headerName,
      getHttpHeaderAtPosition doc params.position = .ok (some headerName) →
      ∀ ast, doc.ast = some ast →
      ∀ locs, (walkAST ast).foldlM (hdrLocsAtNode headerName) [] = .ok locs →
        ∀ l1 ∈ locs, ∀ l2 ∈ locs, locSpanEq l1 l2 ∨ locDisjoint l1 l2)
    (hlocal : ∀ ast containingSub, doc.ast = some ast →
      findContainingSubroutine ast params.position = some containingSub →
      (findVariableUsagesInBlock containingSub
        (doc.getWord params.position)).Pairwise locDisjoint ∧
      (∀ d, findDeclarationLocation containingSub
          (doc.getWord params.position) = .ok (some d) →
        ∀ u ∈ findVariableUsagesInBlock containingSub
            (doc.getWord params.position),
          (u.line = d.line ∧ u.position = d.position) ∨ locDisjoint d u))
    (hglobal : ∀ symbol,
      lookupGlobalSymbol (getSymbolInformation symCache doc) doc
        params.position (doc.getWord params.position) = some symbol →
      ∀ e ∈ getUsageRenameEdits doc (doc.getWord params.position)
          symbol.detail params.newName,
        rangesDisjoint symbol.selectionRange e.range)
    (h : renameResolve fs cache symCache params = .ok (some edits)) :
    edits.Pairwise (fun e1 e2 => rangesDisjoint e1.range e2.range) := by
  rw [renameResolve] at h
  simp only [Bind.bind, Except.bind, pure, Except.pure] at h
  rw [hget] at h
  dsimp only at h
  split at h
  · exact Option.noConfusion (Except.ok.inj h)
  · split at h
    · exact Option.noConfusion (Except.ok.inj h)
    · split at h
      · rename_i x hast
        try dsimp only at h
        split at h
        · cases h
        · rename_i hdr hh
          split at h
          · rename_i headerName
            split at h
            · rename_i htest
              split at h
              · cases h
              · rename_i hl hhl
                split at h
                · rename_i hlen
                  have he : some hl = some edits := Except.ok.inj h
                  rw [← Option.some.inj he]
                  exact getHttpHeaderRenameEdits_pairwise (liftJs_ok hhl)
                    (hheader headerName (liftJs_ok hh))
                · cases hlr : liftJs (getLocalVariableRenameEdits doc
                      (doc.getWord params.position) params.position
                      params.newName) with
                  | error e =>
                    rw [hlr] at h
                    try dsimp only at h
                    exact Except.noConfusion h
                  | ok v =>
                    rw [hlr] at h
                    try dsimp only at h
                    split at h
                    · have he : some v = some edits := Except.ok.inj h
                      rw [← Option.some.inj he]
                      exact getLocalVariableRenameEdits_pairwise
                        (liftJs_ok hlr) hlocal
                    · cases hsym : lookupGlobalSymbol
                          (getSymbolInformation symCache doc) doc
                          params.position (doc.getWord params.position) with
                      | none =>
                        rw [hsym] at h
                        try dsimp only at h
                        exact Option.noConfusion (Except.ok.inj h)
                      | some symbol =>
                        rw [hsym] at h
                        try dsimp only at h
                        have he : some _ = some edits := Except.ok.inj h
                        rw [← Option.some.inj he]
                        rw [List.singleton_append]
                        exact List.pairwise_cons.mpr
                          ⟨fun e he' => hglobal symbol hsym e he',
                           getUsageRenameEdits_pairwise doc _ symbol.detail
                             params.newName⟩
            · try dsimp only at h
              split at h
              · rename_i hlen
                exact absurd hlen (by simp)
              · cases hlr : liftJs (getLocalVariableRenameEdits doc
                    (doc.getWord params.position) params.position
                    params.newName) with
                | error e =>
                  rw [hlr] at h
                  try dsimp only at h
                  exact Except.noConfusion h
                | ok v =>
                  rw [hlr] at h
                  try dsimp only at h
                  split at h
                  · have he : some v = some edits := Except.ok.inj h
                    rw [← Option.some.inj he]
                    exact getLocalVariableRenameEdits_pairwise
                      (liftJs_ok hlr) hlocal
                  · cases hsym : lookupGlobalSymbol
                        (getSymbolInformation symCache doc) doc
                        params.position (doc.getWord params.position) with
                    | none =>
                      rw [hsym] at h
                      try dsimp only at h
                      exact Option.noConfusion (Except.ok.inj h)
                    | some symbol =>
                      rw [hsym] at h
                      try dsimp only at h
                      have he : some _ = some edits := Except.ok.inj h
                      rw [← Option.some.inj he]
                      rw [List.singleton_append]
                      exact List.pairwise_cons.mpr
                        ⟨fun e he' => hglobal symbol hsym e he',
                         getUsageRenameEdits_pairwise doc _ symbol.detail
                           params.newName⟩
          · try dsimp only at h
            split at h
            · rename_i hlen
              exact absurd hlen (by simp)
            · cases hlr : liftJs (getLocalVariableRenameEdits doc
                  (doc.getWord params.position) params.position
                  params.newName) with
              | error e =>
                rw [hlr] at h
                try dsimp only at h
                exact Except.noConfusion h
              | ok v =>
                rw [hlr] at h
                try dsimp only at h
                split at h
                · have he : some v = some edits := Except.ok.inj h
                  rw [← Option.some.inj he]
                  exact getLocalVariableRenameEdits_pairwise
                    (liftJs_ok hlr) hlocal
                · cases hsym : lookupGlobalSymbol
                      (getSymbolInformation symCache doc) doc
                      params.position (doc.getWord params.position) with
                  | none =>
                    rw [hsym] at h
                    try dsimp only at h
                    exact Option.noConfusion (Except.ok.inj h)
                  | some symbol =>
                    rw [hsym] at h
                    try dsimp only at h
                    have he : some _ = some edits := Except.ok.inj h
                    rw [← Option.some.inj he]
                    rw [List.singleton_append]
                    exact List.pairwise_cons.mpr
                      ⟨fun e he' => hglobal symbol hsym e he',
                       getUsageRenameEdits_pairwise doc _ symbol.detail
                         params.newName⟩
      · try dsimp only at h
        repeat' split at h
        all_goals first
          | (rename_i hlen
             exact absurd hlen (by simp))
          | exact Option.noConfusion (Except.ok.inj h)
          | (rename_i symbol hsym
             have he : some _ = some edits := Except.ok.inj h
             rw [← Option.some.inj he]
             rw [List.singleton_append]
             exact List.pairwise_cons.mpr
               ⟨fun e he' => hglobal symbol hsym e he',
                getUsageRenameEdits_pairwise doc _ symbol.detail
                  params.newName⟩)

/-- C5 fixture: `sub mix` declared once, called from `sub a` and `sub b`;
rename is requested at the declaration name. -/
def c5Text : String :=
  "sub mix \x7b\n\x7d\nsub a \x7b\ncall mix;\n\x7d\nsub b \x7b\ncall mix;\n\x7d\n"

def c5Ast : ASTNode :=
  rootNode [subWithBlock 1 5 "mix" 2, subWithBlock 3 5 "a" 5,
            subWithBlock 6 5 "b" 8]

def c5Doc : VclDocument := ⟨"file:///c5.vcl", c5Text, some c5Ast⟩

/-- The symbol the global lookup resolves `mix` to. -/
def c5MixSymbol : DocumentSymbol :=
  .mk (some "mix") .Function (some "SUBROUTINE")
    ⟨⟨0, 0⟩, ⟨1, 2⟩⟩ ⟨⟨0, 4⟩, ⟨0, 7⟩⟩ none

/-- The edit set the rename of `mix` to `blend` returns: the declaration's
selection range plus the two `call` usages. -/
def c5Edits : List TextEdit :=
  [⟨⟨⟨0, 4⟩, ⟨0, 7⟩⟩, "blend"⟩, ⟨⟨⟨3, 5⟩, ⟨3, 8⟩⟩, "blend"⟩,
   ⟨⟨⟨6, 5⟩, ⟨6, 8⟩⟩, "blend"⟩]

/-- C5 witness: the full pipeline (symbol table built by
`updateDocumentSymbols`, rename of the subroutine `mix` to `blend` at its
declaration) returns a concrete three-edit set, and the main theorem
applies to it — all well-spannedness hypotheses hold on this document. -/
theorem c5_rename_edits_nonoverlapping_witness :
    List.Pairwise (fun e1 e2 => rangesDisjoint e1.range e2.range) c5Edits :=
  c5_rename_edits_nonoverlapping (fun _ => .error "ENOENT")
    [("file:///c5.vcl", c5Doc)] (updateDocumentSymbols [] c5Doc)
    ⟨"file:///c5.vcl", ⟨0, 4⟩, "blend"⟩ c5Doc
    [("file:///c5.vcl", c5Doc)] c5Edits
    rfl
    (by
      intro headerName hhit
      rw [show getHttpHeaderAtPosition c5Doc ⟨0, 4⟩ = Except.ok none
        from rfl] at hhit
      exact Option.noConfusion (Except.ok.inj hhit))
    (by
      intro ast csub hast hsub
      rw [show c5Doc.ast = some c5Ast from rfl] at hast
      cases Option.some.inj hast
      rw [show findContainingSubroutine c5Ast ⟨0, 4⟩ =
        some (subWithBlock 1 5 "mix" 2) from rfl] at hsub
      cases Option.some.inj hsub
      constructor
      · rw [show findVariableUsagesInBlock (subWithBlock 1 5 "mix" 2)
          (c5Doc.getWord ⟨0, 4⟩) = [] from rfl]
        exact List.Pairwise.nil
      · intro d hd
        rw [show findDeclarationLocation (subWithBlock 1 5 "mix" 2)
          (c5Doc.getWord ⟨0, 4⟩) = Except.ok none from rfl] at hd
        exact Option.noConfusion (Except.ok.inj hd))
    (by
      intro symbol hsym
      rw [show lookupGlobalSymbol
          (getSymbolInformation (updateDocumentSymbols [] c5Doc) c5Doc)
          c5Doc ⟨0, 4⟩ (c5Doc.getWord ⟨0, 4⟩) = some c5MixSymbol
        from rfl] at hsym
      cases Option.some.inj hsym
      intro e he
      rw [show getUsageRenameEdits c5Doc (c5Doc.getWord ⟨0, 4⟩)
          c5MixSymbol.detail "blend" =
        [⟨⟨⟨3, 5⟩, ⟨3, 8⟩⟩, "blend"⟩, ⟨⟨⟨6, 5⟩, ⟨6, 8⟩⟩, "blend"⟩]
        from rfl] at he
      cases he with
      | head => decide
      | tail _ h2 =>
        cases h2 with
        | head => decide
        | tail _ h3 => cases h3)
    rfl

/-! ## Claim C2 — idempotence of rename

The repository contains no edit-application code (the LSP client applies
`WorkspaceEdit`s), so applying an edit set is modelled here from the LSP
`TextDocument` semantics: offsets via `offsetAt` clamping, splice per
edit, edits applied bottom-up (descending start position). -/

/-- Modelled from the spec: `TextDocument.offsetAt` — clamp the line into
the document, then clamp the character into the line (which includes its
trailing newline). -/
def offsetAtPos (text : List Char) (p : Pos) : Nat :=
  if p.line < 0 then 0
  else
    let lines := docLines text
    if (lines.length : Int) ≤ p.line then text.length
    else
      ((lines.take p.line.toNat).map List.length).sum +
      min (max p.character 0).toNat (lines.getD p.line.toNat []).length

/-- Modelled from the spec: splice one edit's replacement text over its
range. -/
def applyEdit (text : List Char) (e : TextEdit) : List Char :=
  text.take (offsetAtPos text e.range.start) ++ e.newText.toList ++
  text.drop (offsetAtPos text e.range.stop)

/-- Modelled from the spec: insertion sort by descending start position,
so edits are applied bottom-up and earlier offsets stay valid. -/
def insertEditDesc (e : TextEdit) : List TextEdit → List TextEdit
  | [] => [e]
  | x :: xs =>
    if Pos.le x.range.start e.range.start then e :: x :: xs
    else x :: insertEditDesc e xs

def sortEditsDesc (es : List TextEdit) : List TextEdit :=
  es.foldr insertEditDesc []

/-- Modelled from the spec: apply a whole edit set to a document text. -/
def applyEdits (text : List Char) (es : List TextEdit) : List Char :=
  (sortEditsDesc es).foldl applyEdit text

theorem mem_insertEditDesc {x e : TextEdit} :
    ∀ {l : List TextEdit}, x ∈ insertEditDesc e l → x = e ∨ x ∈ l := by
  intro l
  induction l with
  | nil =>
    intro h
    rw [insertEditDesc] at h
    rw [List.mem_singleton] at h
    exact Or.inl h
  | cons y ys ih =>
    intro h
    rw [insertEditDesc] at h
    split at h
    · rcases List.mem_cons.mp h with h | h
      · exact Or.inl h
      · exact Or.inr h
    · rcases List.mem_cons.mp h with h | h
      · exact Or.inr (h ▸ List.mem_cons_self _ _)
      · rcases ih h with h | h
        · exact Or.inl h
        · exact Or.inr (List.mem_cons_of_mem _ h)

theorem mem_sortEditsDesc {x : TextEdit} :
    ∀ {es : List TextEdit}, x ∈ sortEditsDesc es → x ∈ es := by
  intro es
  induction es with
  | nil => intro h; cases h
  | cons e rest ih =>
    intro h
    rw [sortEditsDesc, List.foldr_cons] at h
    rcases mem_insertEditDesc h with h | h
    · exact h ▸ List.mem_cons_self _ _
    · exact List.mem_cons_of_mem _ (ih h)

/-- An edit whose range currently spans exactly its replacement text
leaves the document unchanged. -/
theorem applyEdit_noop {text : List Char} {e : TextEdit}
    (hle : offsetAtPos text e.range.start ≤ offsetAtPos text e.range.stop)
    (hslice : (text.drop (offsetAtPos text e.range.start)).take
      (offsetAtPos text e.range.stop - offsetAtPos text e.range.start) =
      e.newText.toList) :
    applyEdit text e = text := by
  rw [applyEdit, ← hslice]
  have h1 : text.drop (offsetAtPos text e.range.stop) =
      (text.drop (offsetAtPos text e.range.start)).drop
        (offsetAtPos text e.range.stop -
         offsetAtPos text e.range.start) := by
    rw [List.drop_drop]
    congr 1
    omega
  rw [h1, List.append_assoc, List.take_append_drop, List.take_append_drop]

theorem foldl_applyEdit_noop {text : List Char} :
    ∀ l : List TextEdit, (∀ e ∈ l, applyEdit text e = text) →
      l.foldl applyEdit text = text := by
  intro l
  induction l with
  | nil => intro _; rfl
  | cons e xs ih =>
    intro h
    rw [List.foldl_cons, h e (List.mem_cons_self _ _)]
    exact ih (fun x hx => h x (List.mem_cons_of_mem _ hx))

theorem applyEdits_noop {text : List Char} {es : List TextEdit}
    (h : ∀ e ∈ es, applyEdit text e = text) : applyEdits text es = text :=
  foldl_applyEdit_noop _ (fun e he => h e (mem_sortEditsDesc he))

/-- Every pattern-based usage edit writes the new name. -/
theorem getUsageRenameEdits_newText {doc : VclDocument} {name : String}
    {symbolType : Option String} {newName : String} :
    ∀ e ∈ getUsageRenameEdits doc name symbolType newName,
      e.newText = newName := by
  intro e he
  rw [getUsageRenameEdits] at he
  split at he
  · cases he
  · obtain ⟨o, _, hfo⟩ := List.mem_map.mp he
    subst hfo
    rfl

/-- Every header rename edit writes the new name. -/
theorem getHttpHeaderRenameEdits_newText {doc : VclDocument}
    {headerName newName : String} {edits : List TextEdit}
    (h : getHttpHeaderRenameEdits doc headerName newName = .ok edits) :
    ∀ e ∈ edits, e.newText = newName := by
  rw [getHttpHeaderRenameEdits] at h
  split at h
  · have h0 : ([] : List TextEdit) = edits := Except.ok.inj h
    rw [← h0]
    intro e he
    cases he
  · simp only [Bind.bind, Except.bind] at h
    split at h
    · cases h
    · have h0 := Except.ok.inj h
      rw [← h0]
      intro e he
      obtain ⟨l, _, hfo⟩ := List.mem_map.mp he
      subst hfo
      rfl

/-- Every local-variable rename edit writes the new name. -/
theorem getLocalVariableRenameEdits_newText {doc : VclDocument}
    {name : String} {position : Pos} {newName : String}
    {edits : List TextEdit}
    (h : getLocalVariableRenameEdits doc name position newName =
      .ok edits) :
    ∀ e ∈ edits, e.newText = newName := by
  rw [getLocalVariableRenameEdits] at h
  split at h
  · have h0 : ([] : List TextEdit) = edits := Except.ok.inj h
    rw [← h0]; intro e he; cases he
  · split at h
    · have h0 : ([] : List TextEdit) = edits := Except.ok.inj h
      rw [← h0]; intro e he; cases he
    · split at h
      · have h0 : ([] : List TextEdit) = edits := Except.ok.inj h
        rw [← h0]; intro e he; cases he
      · simp only [Bind.bind, Except.bind] at h
        split at h
        · cases h
        · rename_i declOpt hdloc
          have h0 := Except.ok.inj h
          rw [← h0]
          intro e he
          rcases List.mem_append.mp he with he | he
          · cases declOpt with
            | none => cases he
            | some d =>
              rw [List.mem_singleton] at he
              subst he
              rfl
          · obtain ⟨u, hu, hfu⟩ := List.mem_filterMap.mp he
            cases declOpt with
            | none =>
              dsimp only at hfu
              cases Option.some.inj hfu
              rfl
            | some d =>
              dsimp only at hfu
              by_cases hk : u.line = d.line ∧ u.position = d.position
              · rw [if_pos hk] at hfu
                cases hfu
              · rw [if_neg hk] at hfu
                cases Option.some.inj hfu
                rfl

/-- Every edit of a successful rename writes the requested new name,
whichever path produced it. -/
theorem renameResolve_newText {fs : FileSystem} {cache : DocCache}
    {symCache : SymbolCache} {params : RenameParams}
    {edits : List TextEdit}
    (h : renameResolve fs cache symCache params = .ok (some edits)) :
    ∀ e ∈ edits, e.newText = params.newName := by
  rw [renameResolve] at h
  simp only [Bind.bind, Except.bind, pure, Except.pure] at h
  split at h
  · cases h
  · rename_i got hgot
    split at h
    · exact Option.noConfusion (Except.ok.inj h)
    · rename_i doc hdoc
      split at h
      · exact Option.noConfusion (Except.ok.inj h)
      · split at h
        · exact Option.noConfusion (Except.ok.inj h)
        · split at h
          · rename_i x hast
            try dsimp only at h
            split at h
            · cases h
            · rename_i hdr hh
              split at h
              · rename_i headerName
                split at h
                · rename_i htest
                  split at h
                  · cases h
                  · rename_i hl hhl
                    split at h
                    · rename_i hlen
                      have he : some hl = some edits := Except.ok.inj h
                      rw [← Option.some.inj he]
                      exact getHttpHeaderRenameEdits_newText (liftJs_ok hhl)
                    · cases hlr : liftJs (getLocalVariableRenameEdits doc
                          (doc.getWord params.position) params.position
                          params.newName) with
                      | error e =>
                        rw [hlr] at h
                        try dsimp only at h
                        exact Except.noConfusion h
                      | ok v =>
                        rw [hlr] at h
                        try dsimp only at h
                        split at h
                        · have he : some v = some edits := Except.ok.inj h
                          rw [← Option.some.inj he]
                          exact getLocalVariableRenameEdits_newText
                            (liftJs_ok hlr)
                        · cases hsym : lookupGlobalSymbol
                              (getSymbolInformation symCache doc) doc
                              params.position
                              (doc.getWord params.position) with
                          | none =>
                            rw [hsym] at h
                            try dsimp only at h
                            exact Option.noConfusion (Except.ok.inj h)
                          | some symbol =>
                            rw [hsym] at h
                            try dsimp only at h
                            have he : some _ = some edits :=
                              Except.ok.inj h
                            rw [← Option.some.inj he]
                            intro e he'
                            rcases List.mem_append.mp he' with he' | he'
                            · rw [List.mem_singleton] at he'
                              subst he'
                              rfl
                            · exact getUsageRenameEdits_newText e he'
                · try dsimp only at h
                  split at h
                  · rename_i hlen
                    exact absurd hlen (by simp)
                  · cases hlr : liftJs (getLocalVariableRenameEdits doc
                        (doc.getWord params.position) params.position
                        params.newName) with
                    | error e =>
                      rw [hlr] at h
                      try dsimp only at h
                      exact Except.noConfusion h
                    | ok v =>
                      rw [hlr] at h
                      try dsimp only at h
                      split at h
                      · have he : some v = some edits := Except.ok.inj h
                        rw [← Option.some.inj he]
                        exact getLocalVariableRenameEdits_newText
                          (liftJs_ok hlr)
                      · cases hsym : lookupGlobalSymbol
                            (getSymbolInformation symCache doc) doc
                            params.position
                            (doc.getWord params.position) with
                        | none =>
                          rw [hsym] at h
                          try dsimp only at h
                          exact Option.noConfusion (Except.ok.inj h)
                        | some symbol =>
                          rw [hsym] at h
                          try dsimp only at h
                          have he : some _ = some edits := Except.ok.inj h
                          rw [← Option.some.inj he]
                          intro e he'
                          rcases List.mem_append.mp he' with he' | he'
                          · rw [List.mem_singleton] at he'
                            subst he'
                            rfl
                          · exact getUsageRenameEdits_newText e he'
              · try dsimp only at h
                split at h
                · rename_i hlen
                  exact absurd hlen (by simp)
                · cases hlr : liftJs (getLocalVariableRenameEdits doc
                      (doc.getWord params.position) params.position
                      params.newName) with
                  | error e =>
                    rw [hlr] at h
                    try dsimp only at h
                    exact Except.noConfusion h
                  | ok v =>
                    rw [hlr] at h
                    try dsimp only at h
                    split at h
                    · have he : some v = some edits := Except.ok.inj h
                      rw [← Option.some.inj he]
                      exact getLocalVariableRenameEdits_newText
                        (liftJs_ok hlr)
                    · cases hsym : lookupGlobalSymbol
                          (getSymbolInformation symCache doc) doc
                          params.position
                          (doc.getWord params.position) with
                      | none =>
                        rw [hsym] at h
                        try dsimp only at h
                        exact Option.noConfusion (Except.ok.inj h)
                      | some symbol =>
                        rw [hsym] at h
                        try dsimp only at h
                        have he : some _ = some edits := Except.ok.inj h
                        rw [← Option.some.inj he]
                        intro e he'
                        rcases List.mem_append.mp he' with he' | he'
                        · rw [List.mem_singleton] at he'
                          subst he'
                          rfl
                        · exact getUsageRenameEdits_newText e he'
          · try dsimp only at h
            repeat' split at h
            all_goals first
              | (rename_i hlen
                 exact absurd hlen (by simp))
              | exact Option.noConfusion (Except.ok.inj h)
              | (rename_i symbol hsym
                 have he : some _ = some edits := Except.ok.inj h
                 rw [← Option.some.inj he]
                 intro e he'
                 rcases List.mem_append.mp he' with he' | he'
                 · rw [List.mem_singleton] at he'
                   subst he'
                   rfl
                 · exact getUsageRenameEdits_newText e he')

/-- C2 fixture: `sub foo` called once; first rename `foo → bar` at the
declaration, apply the edits, reparse, then rename again at the renamed
usage with the same new name. -/
def c2Text1 : String := "sub foo \x7b\n\x7d\nsub x \x7b\ncall foo;\n\x7d\n"

def c2Text2 : String := "sub bar \x7b\n\x7d\nsub x \x7b\ncall bar;\n\x7d\n"

def c2Ast1 : ASTNode :=
  rootNode [subWithBlock 1 5 "foo" 2, subWithBlock 3 5 "x" 5]

def c2Ast2 : ASTNode :=
  rootNode [subWithBlock 1 5 "bar" 2, subWithBlock 3 5 "x" 5]

def c2Doc1 : VclDocument := ⟨"file:///c2.vcl", c2Text1, some c2Ast1⟩

def c2Doc2 : VclDocument := ⟨"file:///c2.vcl", c2Text2, some c2Ast2⟩

/-- The edit set both rename calls return. -/
def c2Edits : List TextEdit :=
  [⟨⟨⟨0, 4⟩, ⟨0, 7⟩⟩, "bar"⟩, ⟨⟨⟨3, 5⟩, ⟨3, 8⟩⟩, "bar"⟩]

/-- C2: rename is *not* idempotent in the claimed sense.  Renaming `foo`
to `bar` (a name colliding with nothing) returns two edits; after
applying them and reparsing, renaming again at the resulting usage
occurrence `(3,5)` with the same new name returns the *same two-edit
set*, not the empty set — `resolve` has no already-named check on any
path. -/
theorem c2_rename_not_idempotent :
    (renameResolve (fun _ => .error "ENOENT") [("file:///c2.vcl", c2Doc1)]
      (updateDocumentSymbols [] c2Doc1)
      ⟨"file:///c2.vcl", ⟨0, 4⟩, "bar"⟩ = .ok (some c2Edits)) ∧
    applyEdits c2Text1.toList c2Edits = c2Text2.toList ∧
    (renameResolve (fun _ => .error "ENOENT") [("file:///c2.vcl", c2Doc2)]
      (updateDocumentSymbols [] c2Doc2)
      ⟨"file:///c2.vcl", ⟨3, 5⟩, "bar"⟩ = .ok (some c2Edits)) ∧
    ¬ c2Edits = [] :=
  ⟨rfl, by decide, rfl, by decide⟩

/-- C2 amended: rename is only *textually* idempotent.  Every returned
edit writes exactly `params.newName`, so in the post-rename document —
where, after the re-parse, each returned range already spans the new
name — applying the returned edit set is the identity on the text; the
edit set itself is returned again, non-empty, rather than empty. -/
theorem c2_amended_rename_textually_idempotent
    (fs : FileSystem) (cache : DocCache) (symCache : SymbolCache)
    (params : RenameParams) (edits : List TextEdit) (text : List Char)
    (h : renameResolve fs cache symCache params = .ok (some edits))
    (hspan : ∀ e ∈ edits,
      offsetAtPos text e.range.start ≤ offsetAtPos text e.range.stop ∧
      (text.drop (offsetAtPos text e.range.start)).take
        (offsetAtPos text e.range.stop -
         offsetAtPos text e.range.start) = e.newText.toList) :
    (∀ e ∈ edits, e.newText = params.newName) ∧
    applyEdits text edits = text :=
  ⟨renameResolve_newText h,
   applyEdits_noop (fun e he =>
     applyEdit_noop (hspan e he).1 (hspan e he).2)⟩

/-- C2 amended witness: the second rename call of the counterexample
scenario — all its edits write `bar`, and applying them to the already
renamed text is the identity. -/
theorem c2_amended_witness :
    (∀ e ∈ c2Edits, e.newText = "bar") ∧
    applyEdits c2Text2.toList c2Edits = c2Text2.toList :=
  c2_amended_rename_textually_idempotent (fun _ => .error "ENOENT")
    [("file:///c2.vcl", c2Doc2)] (updateDocumentSymbols [] c2Doc2)
    ⟨"file:///c2.vcl", ⟨3, 5⟩, "bar"⟩ c2Edits c2Text2.toList
    rfl (by decide)
